import Mathlib

/-!
Verification of the `trade-data` append-only time-series store.

The development shallowly embeds the Rust sources under `src/`:

* `src/key_value_store.rs` — the `Storable` codec contract and its `i32`
  test implementation;
* `src/time_series/storage/file.rs` — the 13-digit `Timestamp` codec;
* `src/value/usd/storable/file.rs` — the `Usd` codec;
* `src/storage/file/mod.rs` — `FileStorage::new`, `binary_search_for_key`,
  `find_to`, `read_key`, `read_record`, `write_record`;
* `src/storage/file/key_value_store.rs` — `store` / `len`;
* `src/storage/file/time_series.rs` — `retrieve_nearest`, `retrieve_range`;
* `src/storage/file/pooled_time_series.rs` — `pool_all`, `gather_buckets`,
  `conclude_bucket`.

Machine integers are embedded as `Nat` / `Int` with explicit range checks
where the source's parsers enforce them.  Byte strings are embedded as
`List Nat` (byte values); all data written by this program is ASCII, so the
source's UTF-8 validation step never fails on the inputs we consider and a
failed numeric parse produces the same "Invalid data" error either way.
-/

namespace TradeData

/-- `enum RetrievalDirection` from `src/time_series/mod.rs`. -/
inductive RetrievalDirection
| Forward
| Backward
deriving DecidableEq

/-- Model of `std::io::Error`: the error kinds produced by this crate,
each carrying the message passed to `io::Error::new`.  `unexpectedEof` is
the kind of a failed `read_exact`.  `modelDiverged` is a marker of this
embedding only: it is returned when a fuelled recursion runs out of fuel,
i.e. in states where the source's recursion or `while` loop would not
terminate; theorems show it is unreachable from the reachable call sites. -/
inductive IoErr
| notFound (msg : String)
| invalidInput (msg : String)
| invalidData (msg : String)
| unexpectedEof
| panicked (msg : String)
| modelDiverged
deriving DecidableEq

instance {e a : Type} [DecidableEq e] [DecidableEq a] : DecidableEq (Except e a) :=
  fun x y =>
  match x, y with
  | .ok x1, .ok y1 =>
    if h : x1 = y1 then .isTrue (h ▸ rfl)
    else .isFalse (fun hc => h (Except.ok.inj hc))
  | .error x1, .error y1 =>
    if h : x1 = y1 then .isTrue (h ▸ rfl)
    else .isFalse (fun hc => h (Except.error.inj hc))
  | .ok _, .error _ => .isFalse (fun hc => Except.noConfusion hc)
  | .error _, .ok _ => .isFalse (fun hc => Except.noConfusion hc)

/-- `error.kind() == io::ErrorKind::InvalidInput || error.kind() == io::ErrorKind::NotFound`,
the test used by `retrieve_to` / `retrieve_range` to translate locator errors
into empty result sets (`src/storage/file/time_series.rs` lines 86, 123). -/
def IoErr.isInvalidInputOrNotFound : IoErr → Bool
| .invalidInput _ => true
| .notFound _ => true
| _ => false

/-! ## Decimal digits

Helpers embedding Rust's decimal formatting (`format!`) and parsing
(`FromStr` for the integer types).  `natDigitsAux` is fuelled to keep the
definition structurally recursive (hence kernel-reducible); `natDigits`
supplies sufficient fuel. -/

/-- Decimal digits of `n`, most significant first, computed with fuel. -/
def natDigitsAux : Nat → Nat → List Nat
| 0, _ => []
| fuel + 1, n => if n < 10 then [n] else natDigitsAux fuel (n / 10) ++ [n % 10]

/-- Decimal digits of `n`, most significant first (never empty: `0 ↦ [0]`). -/
def natDigits (n : Nat) : List Nat := natDigitsAux (n + 1) n

/-- The value denoted by a digit list, most significant first. -/
def digitsVal (ds : List Nat) : Nat := ds.foldl (fun a d => 10 * a + d) 0

/-- ASCII bytes of the decimal rendering of a `Nat`. -/
def natBytes (n : Nat) : List Nat := (natDigits n).map (fun d => 48 + d)

/-- ASCII bytes of the decimal rendering of an `Int` (minus sign included),
as produced by Rust's `Display` for the signed integer types. -/
def intBytes (v : Int) : List Nat :=
  if v < 0 then 45 :: natBytes v.natAbs else natBytes v.natAbs

/-- Left-pad `l` with byte `b` to width `w` (Rust's width/right-align
formatting; a rendering longer than `w` is left unchanged). -/
def padLeft (b w : Nat) (l : List Nat) : List Nat :=
  List.replicate (w - l.length) b ++ l

/-- Is `b` an ASCII decimal digit byte? -/
def isDigitB (b : Nat) : Bool := 48 ≤ b && b ≤ 57

/-- Digit-accumulating core of the integer parsers. -/
def parseDigitsCore (acc : Nat) : List Nat → Option Nat
| [] => some acc
| b :: bs => if isDigitB b then parseDigitsCore (10 * acc + (b - 48)) bs else none

/-- Parse a non-empty all-digit byte string. -/
def parseDigits (bs : List Nat) : Option Nat :=
  if bs.isEmpty then none else parseDigitsCore 0 bs

/-- Rust `u64::from_str`: optional leading `+` (byte 43), then one or more
digits, value within `u64` range; no whitespace is skipped. -/
def parseU64 (bs : List Nat) : Option Nat :=
  let core := if bs.head? = some 43 then parseDigits bs.tail else parseDigits bs
  match core with
  | some v => if v < 2 ^ 64 then some v else none
  | none => none

/-- Rust `from_str` for a signed integer type with magnitude bound `bound`
(`2^31` for `i32`, `2^63` for `i64`): optional sign (`-` is byte 45, `+` is
byte 43), then one or more digits, value within range; no whitespace is
skipped. -/
def parseSigned (bound : Nat) (bs : List Nat) : Option Int :=
  if bs.head? = some 45 then
    match parseDigits bs.tail with
    | some v => if v ≤ bound then some (-(v : Int)) else none
    | none => none
  else if bs.head? = some 43 then
    match parseDigits bs.tail with
    | some v => if v < bound then some (v : Int) else none
    | none => none
  else
    match parseDigits bs with
    | some v => if v < bound then some (v : Int) else none
    | none => none

/-! ## The `Storable` codec implementations (claim C4)

`Timestamp` (`src/time_series/storage/file.rs`), the `i32` test
implementation (`src/key_value_store.rs`), and `Usd`
(`src/value/usd/storable/file.rs`). -/

/-- `Timestamp::size()` — `SIGNIFICANT_DIGITS = 13`. -/
def ts_size : Nat := 13

/-- `<Timestamp as Storable>::into_bytes`:
`format!("{:0size$}", self, size = SIGNIFICANT_DIGITS)`. -/
def ts_into_bytes (t : Nat) : List Nat := padLeft 48 ts_size (natBytes t)

/-- `<Timestamp as Storable>::from_bytes`: UTF-8 check then
`Timestamp::from_str`; any failure is `InvalidData("Invalid data")`. -/
def ts_from_bytes (bs : List Nat) : Except IoErr Nat :=
  match parseU64 bs with
  | some v => .ok v
  | none => .error (.invalidData ("Invalid data"))

/-- `<i32 as Storable>::size()` — 4. -/
def i32_size : Nat := 4

/-- `<i32 as Storable>::into_bytes`: `format!("{:4}", self)` — right aligned,
space padded, width 4. -/
def i32_into_bytes (v : Int) : List Nat := padLeft 32 i32_size (intBytes v)

/-- `<i32 as Storable>::from_bytes`: UTF-8 check then `i32::from_str`
(which does NOT skip whitespace); failure is `InvalidData("Invalid data")`. -/
def i32_from_bytes (bs : List Nat) : Except IoErr Int :=
  match parseSigned (2 ^ 31) bs with
  | some v => .ok v
  | none => .error (.invalidData ("Invalid data"))

/-- Modelled from the spec: the `Usd` value type itself (module
`src/value/usd/mod.rs`) is not under `src/`; only its `Storable`
implementation and tests are.  Following the spec's decimal-currency
description, the sibling `Btc` implementation (`src/value/btc/mod.rs`),
and the `Usd` storable tests (`Usd::new(12345)` displays as `"   123.45"`):
a `Usd` wraps an `i64` count of minor units with `MAJOR_DIGITS = 6` and
`MINOR_DIGITS = 2`. -/
structure Usd where
  value : Int
deriving DecidableEq

/-- `MAJOR_DIGITS` for `Usd` (modelled from the spec, see `Usd`). -/
def usdMajorDigits : Nat := 6

/-- `MINOR_DIGITS` for `Usd` (modelled from the spec, see `Usd`). -/
def usdMinorDigits : Nat := 2

/-- `Value::whole` — `self.value / 10^MINOR_DIGITS` with Rust (truncating)
division (modelled from the spec via the `Btc` sibling). -/
def Usd.whole (u : Usd) : Int := u.value.tdiv (10 ^ usdMinorDigits)

/-- `Value::fractional` — `self.value % 10^MINOR_DIGITS` with Rust
(truncating) remainder (modelled from the spec via the `Btc` sibling). -/
def Usd.fractional (u : Usd) : Int := u.value.tmod (10 ^ usdMinorDigits)

/-- Rust's sign-aware zero padding `format!("{:0w$}", v)`. -/
def intBytesZeroPad (w : Nat) (v : Int) : List Nat :=
  if v < 0 then 45 :: padLeft 48 (w - 1) (natBytes v.natAbs)
  else padLeft 48 w (natBytes v.natAbs)

/-- `Display for Usd` (modelled from the spec via the `Btc` sibling):
`"{whole}.{fractional:0MINOR_DIGITS$}"`. -/
def usdDisplay (u : Usd) : List Nat :=
  intBytes u.whole ++ [46] ++ intBytesZeroPad usdMinorDigits u.fractional

/-- `<Usd as Storable>::size()` — `MAJOR_DIGITS + 1 + MINOR_DIGITS = 9`. -/
def usd_size : Nat := usdMajorDigits + 1 + usdMinorDigits

/-- `<Usd as Storable>::into_bytes`: `format!("{:>size$}", self)` — the
display rendering right-aligned in a 9-byte field. -/
def usd_into_bytes (u : Usd) : List Nat := padLeft 32 usd_size (usdDisplay u)

/-- Is `b` an ASCII whitespace byte?  (`str::trim` trims Unicode
whitespace; the bytes this crate writes are ASCII.) -/
def isWsB (b : Nat) : Bool := b = 32 || b = 9 || b = 10 || b = 13

/-- ASCII model of `str::trim`. -/
def trimB (l : List Nat) : List Nat :=
  ((l.dropWhile (fun b => isWsB b)).reverse.dropWhile (fun b => isWsB b)).reverse

/-- `<Usd as Storable>::from_bytes`: split the buffer at
`len - MINOR_DIGITS - 1`, parse the whole part with `i64::from_str` after
`trim`, parse the last `MINOR_DIGITS` bytes with `i64::from_str` (untrimmed),
and recombine as `whole * 10^MINOR_DIGITS + fractional`. -/
def usd_from_bytes (bs : List Nat) : Except IoErr Usd :=
  let len := bs.length
  if usdMinorDigits + 2 ≤ len then
    match parseSigned (2 ^ 63) (trimB (bs.take (len - usdMinorDigits - 1))) with
    | none => .error (.invalidData ("Invalid data"))
    | some whole =>
      match parseSigned (2 ^ 63) (bs.drop (len - usdMinorDigits)) with
      | none => .error (.invalidData ("Invalid data"))
      | some fractional =>
        .ok ⟨whole * 10 ^ usdMinorDigits + fractional⟩
  else .error (.invalidData ("Invalid data"))

/-! ## The record file, byte level (claims C3 and C5)

`FileStorage<Timestamp, i32>` as a byte file plus the cached fields, with
`item_size = 13 + 1 + 4 + 1 = 19` (`src/storage/file/mod.rs` line 47).
`store` is from `src/storage/file/key_value_store.rs`; its `downcast_ref`
guards cannot fail in this typed embedding. -/

/-- `item_size` for the canonical `Timestamp` / `i32` schema. -/
def item_size : Nat := ts_size + 1 + i32_size + 1

/-- The byte-level `FileStorage<Timestamp, i32>`: the backing file's bytes
plus the cached fields of the struct (`src/storage/file/mod.rs` lines 26-34). -/
structure FileStorage where
  file : List Nat
  items : Nat
  first_key : Nat
  last_key : Nat
  end_offset : Nat
deriving DecidableEq

/-- `write_record` (`src/storage/file/mod.rs` lines 234-244): the bytes
`K::into_bytes(key) ++ " " ++ V::into_bytes(value) ++ "\n"` appended by one
buffered write. -/
def write_record (key : Nat) (value : Int) : List Nat :=
  ts_into_bytes key ++ [32] ++ i32_into_bytes value ++ [10]

/-- `KeyValueStore::store` for `FileStorage`
(`src/storage/file/key_value_store.rs` lines 26-55).  The returned state is
the post-state of `&mut self`; an error return leaves it equal to the input
state, as the source returns before any write. -/
def FileStorage.store (st : FileStorage) (key : Nat) (value : Int) :
    FileStorage × Except IoErr Unit :=
  if st.items > 0 ∧ key ≤ st.last_key then
    (st, .error (.invalidInput ("Passed key was equal to or before the last recorded key")))
  else
    ({ file := st.file ++ write_record key value
       items := st.items + 1
       first_key := if st.items = 0 then key else st.first_key
       last_key := key
       end_offset := if st.items = 0 then st.end_offset else st.end_offset + item_size },
     .ok ())

/-- `KeyValueStore::len` for `FileStorage`. -/
def FileStorage.len (st : FileStorage) : Nat := st.items

/-- `FileStorage::new` (`src/storage/file/mod.rs` lines 37-81), reading an
existing file's bytes: reject a length that is not a multiple of
`item_size`, otherwise recover `items`, `first_key`, `last_key` and
`end_offset` from the file. -/
def FileStorage.new (file : List Nat) : Except IoErr FileStorage :=
  let e := file.length
  if e % item_size = 0 then
    let items := e / item_size
    if item_size ≤ e then
      match ts_from_bytes (file.take ts_size) with
      | .error er => .error er
      | .ok first_key =>
        let end_offset := e - item_size
        match ts_from_bytes ((file.drop end_offset).take ts_size) with
        | .error er => .error er
        | .ok last_key => .ok ⟨file, items, first_key, last_key, end_offset⟩
    else
      .ok ⟨file, items, 0, 0, 0⟩
  else .error (.invalidData ("FileStorage file is an invalid size"))

/-- The store obtained by `FileStorage::new` on an absent/empty file. -/
def emptyStorage : FileStorage := ⟨[], 0, 0, 0, 0⟩

/-- A sequence of `store` calls, `none` as soon as one fails. -/
def store_list (st : FileStorage) : List (Nat × Int) → Option FileStorage
| [] => some st
| (k, v) :: rest =>
  match st.store k v with
  | (st1, .ok _) => store_list st1 rest
  | (_, .error _) => none

/-- The byte file produced by appending each record of `recs` in order. -/
def recordsBytes (recs : List (Nat × Int)) : List Nat :=
  (recs.map (fun p => write_record p.1 p.2)).flatten

/-- A record whose encodings fill their fixed widths exactly: a key below
`10^13` (13 digits) and an `i32` value whose rendering is at most 4
characters.  Outside this range the source silently writes an over-wide
record (spec design note 3). -/
def inRangeKV (p : Nat × Int) : Prop :=
  p.1 < 10 ^ 13 ∧ -999 ≤ p.2 ∧ p.2 ≤ 9999

instance (p : Nat × Int) : Decidable (inRangeKV p) := by
  unfold inRangeKV
  exact inferInstance

/-- The relation between a byte-level store state and the record sequence
appended to it since creation, as maintained by `store`. -/
def GoodState (st : FileStorage) (recs : List (Nat × Int)) : Prop :=
  st.file = recordsBytes recs ∧ st.items = recs.length ∧
    (if recs.isEmpty then st = emptyStorage
     else
       st.first_key = (recs.headD (0, 0)).1 ∧
       st.last_key = (recs.getLastD (0, 0)).1 ∧
       st.end_offset = (recs.length - 1) * item_size)

/-! ## The record file, record level (claims C1, C2, C6, C7-C10)

The retrieval and pooling code reads the file only at whole-record
boundaries: `read_key` reads the `K::size()` bytes at a multiple of
`item_size` and `read_record` the `item_size` bytes there, and every offset
the searches produce is a multiple of `item_size`.  On a well-formed file
(fixed-width records, claim C5) such a read decodes exactly the record at
index `offset / item_size`.  This layer therefore abstracts the file as its
list of decoded records: `read_key_at` / `read_record_at` return the key /
record at index `offset / item_size`, and a read past the end is the
`UnexpectedEof` of the source's failed `read_exact`. -/

/-- A decoded record; the key is the Rust `Timestamp` (`type Timestamp =
u64` in `src/time_series/mod.rs`), embedded as `Nat`. -/
abbrev Rec := Nat × Int

/-- `read_key` (`src/storage/file/mod.rs` lines 204-214) at byte offset
`off` of a file whose decoded records are `recs`. -/
def read_key_at (recs : List Rec) (off : Nat) : Except IoErr Nat :=
  match recs.get? (off / item_size) with
  | some r => .ok r.1
  | none => .error .unexpectedEof

/-- `read_record` (`src/storage/file/mod.rs` lines 216-232) at byte offset
`off` of a file whose decoded records are `recs`. -/
def read_record_at (recs : List Rec) (off : Nat) : Except IoErr Rec :=
  match recs.get? (off / item_size) with
  | some r => .ok r
  | none => .error .unexpectedEof

/-- `bisect_and_descend` (`src/storage/file/mod.rs` lines 164-199).  The
source recursion is fuelled here: every reachable call strictly shrinks
`end_offset - start_offset` by at least `item_size`, so the fuel
`end_offset - start_offset` supplied by `binary_search_for_key` never runs
out (it could only ever run out in states with `range_items = 0`, which the
call sites exclude and on which the source would recurse forever). -/
def bisect_and_descend : Nat → List Rec → Option RetrievalDirection → Nat →
    Nat → Nat → Except IoErr Nat
| 0, _, _, _, _, _ => .error .modelDiverged
| fuel + 1, recs, dir, search_key, start_offset, end_offset =>
    let range := end_offset - start_offset
    let range_items := range / item_size
    if range_items = 1 then
      match dir with
      | some .Forward => .ok end_offset
      | some .Backward => .ok start_offset
      | none => .error (.notFound ("Search key was not found"))
    else
      let center_offset := start_offset + range_items / 2 * item_size
      match read_key_at recs center_offset with
      | .error er => .error er
      | .ok center_key =>
        if search_key < center_key then
          bisect_and_descend fuel recs dir search_key start_offset center_offset
        else if center_key < search_key then
          bisect_and_descend fuel recs dir search_key center_offset end_offset
        else .ok center_offset

/-- `binary_search_for_key` (`src/storage/file/mod.rs` lines 122-202). -/
def binary_search_for_key (recs : List Rec) (dir : Option RetrievalDirection)
    (search_key : Nat) (start_offset end_offset : Nat) : Except IoErr Nat :=
  if start_offset = end_offset then .error (.notFound ("No items in search range"))
  else
    match read_key_at recs start_offset with
    | .error er => .error er
    | .ok start_key =>
      if search_key < start_key then
        if dir ≠ some .Forward then .error (.notFound ("Search key is before the search range"))
        else .ok start_offset
      else if search_key = start_key then .ok start_offset
      else
        match read_key_at recs end_offset with
        | .error er => .error er
        | .ok end_key =>
          if end_key < search_key then
            if dir ≠ some .Backward then
              .error (.notFound ("Search timestamp is after the search range"))
            else .ok end_offset
          else if search_key = end_key then .ok end_offset
          else
            bisect_and_descend (end_offset - start_offset) recs dir search_key
              start_offset end_offset

/-- The record-level view of a `FileStorage<Timestamp, i32>`: the decoded
records and the struct's cached fields. -/
structure TsStore where
  recs : List Rec
  items : Nat
  first_key : Nat
  last_key : Nat
  end_offset : Nat

/-- Consecutive keys strictly ascend (file invariant maintained by `store`). -/
def sortedKeys : List Rec → Bool
| [] => true
| [_] => true
| a :: b :: rest => a.1 < b.1 && sortedKeys (b :: rest)

/-- Well-formedness of the cached fields of a `TsStore`, as established by
`FileStorage::new` and maintained by `store`. -/
def TsStore.WF (st : TsStore) : Prop :=
  st.items = st.recs.length ∧ sortedKeys st.recs = true ∧
    (if st.recs.length = 0 then
      st.first_key = 0 ∧ st.last_key = 0 ∧ st.end_offset = 0
    else
      st.first_key = ((st.recs.headD (0, 0)).1) ∧
      st.last_key = ((st.recs.getLastD (0, 0)).1) ∧
      st.end_offset = (st.recs.length - 1) * item_size)

instance (st : TsStore) : Decidable st.WF := by
  unfold TsStore.WF
  exact inferInstance

/-- Specification helper: the number of stored records whose key is below
`k`; in a sorted file this is the index of the first record with key `≥ k`. -/
def countLT (recs : List Rec) (k : Nat) : Nat :=
  recs.countP (fun r => decide (r.1 < k))

/-- Specification helper: the number of stored records whose key is at most
`k`. -/
def countLE (recs : List Rec) (k : Nat) : Nat :=
  recs.countP (fun r => decide (r.1 ≤ k))

/-- `find_to` (`src/storage/file/mod.rs` lines 102-119). -/
def find_to (st : TsStore) (search_key : Nat) : Except IoErr Nat :=
  match binary_search_for_key st.recs (some .Backward) search_key 0 st.end_offset with
  | .error er => .error er
  | .ok to_offset =>
    match read_key_at st.recs to_offset with
    | .error er => .error er
    | .ok to_key =>
      if to_key ≠ search_key then .ok to_offset
      else if 0 < to_offset then .ok (to_offset - item_size)
      else .error (.invalidInput ("find_to search key was equal to the first record"))

/-- `TimeSeries::retrieve_nearest` (`src/storage/file/time_series.rs`
lines 25-37). -/
def retrieve_nearest (st : TsStore) (timestamp : Nat)
    (dir : Option RetrievalDirection) : Except IoErr Rec :=
  match binary_search_for_key st.recs dir timestamp 0 st.end_offset with
  | .error er => .error er
  | .ok record_offset => read_record_at st.recs record_offset

/-- `count` sequential `read_record`s starting at byte offset `off`. -/
def read_records_from (recs : List Rec) (off : Nat) : Nat → Except IoErr (List Rec)
| 0 => .ok []
| n + 1 =>
  match read_record_at recs off with
  | .error er => .error er
  | .ok r =>
    match read_records_from recs (off + item_size) n with
    | .error er => .error er
    | .ok rest => .ok (r :: rest)

/-- `TimeSeries::retrieve_range` (`src/storage/file/time_series.rs`
lines 110-146).  `Vec::with_capacity(to_item - from_item)` panics when the
`usize` subtraction overflows (debug: subtract-with-overflow; release: the
wrapped capacity aborts); the embedding surfaces this as `IoErr.panicked`. -/
def retrieve_range (st : TsStore) (rangeStart rangeEnd : Nat) :
    Except IoErr (List Rec) :=
  if rangeStart ≤ st.last_key then
    match binary_search_for_key st.recs (some .Forward) rangeStart 0 st.end_offset with
    | .error e => .error e
    | .ok from_offset =>
      match find_to st rangeEnd with
      | .error e =>
        if e.isInvalidInputOrNotFound then .ok [] else .error e
      | .ok to_offset =>
        let from_item := from_offset / item_size
        let to_item := to_offset / item_size + 1
        if to_item < from_item then
          .error (.panicked ("attempt to subtract with overflow"))
        else read_records_from st.recs from_offset (to_item - from_item)
  else .ok []

/-! ## Pooling (claims C7-C10)

`src/pooled_time_series.rs` (the option types) and
`src/storage/file/pooled_time_series.rs` (`pool_all`, `gather_buckets`,
`conclude_bucket`), for the canonical value type `i32` whose `Poolable`
instance is in `src/pooled_time_series.rs`'s test module. -/

/-- `enum GapFillMethod`. -/
inductive GapFillMethod
| Default
| Previous
deriving DecidableEq

/-- `enum PoolingMethod`. -/
inductive PoolingMethod
| End
| High
| Low
| Mean
| Start
| Sum
deriving DecidableEq

/-- `struct PoolingOptions`. -/
structure PoolingOptions where
  interval : Nat
  pooling : PoolingMethod
  gap_fill : Option GapFillMethod
deriving DecidableEq

/-- The local `struct Bucket` of `gather_buckets` (records gathered so far
and the half-open interval `[bstart, bend)`; the source field names are
`start` and `end`). -/
structure Bucket where
  records : List Rec
  bstart : Nat
  bend : Nat

/-- `records.iter().max_by_key(|r| r.1)`: Rust's `max_by_key` returns the
last maximal element. -/
def maxByValue : List Rec → Option Rec
| [] => none
| r :: rest =>
  match maxByValue rest with
  | none => some r
  | some m => if m.2 < r.2 then some r else some m

/-- `records.iter().min_by_key(|r| r.1)`: Rust's `min_by_key` returns the
first minimal element. -/
def minByValue : List Rec → Option Rec
| [] => none
| r :: rest =>
  match minByValue rest with
  | none => some r
  | some m => if r.2 ≤ m.2 then some r else some m

/-- `<i32 as Poolable>::sum`. -/
def i32sum (values : List Int) : Int := values.foldr (· + ·) 0

/-- `<i32 as Poolable>::mean` — the source computes
`(sum as f32 / len as f32) as i32`; the `f32` detour is embedded as the
truncated integer mean, which agrees on the exactly-representable cases.
No claim in this development evaluates `Mean`. -/
def i32mean (values : List Int) : Int := (i32sum values).tdiv values.length

/-- `conclude_bucket` (`src/storage/file/pooled_time_series.rs` lines
179-206): push the concluded bucket's `(start, value)` onto `values`, or
the gap-fill value (if any) for an empty bucket. -/
def conclude_bucket (bucket : Bucket) (values : List Rec) (last_record : Rec)
    (opts : PoolingOptions) : List Rec :=
  if bucket.records ≠ [] then
    values ++ [(bucket.bstart,
      match opts.pooling with
      | .End => (bucket.records.getLastD (0, 0)).2
      | .High => ((maxByValue bucket.records).getD (0, 0)).2
      | .Low => ((minByValue bucket.records).getD (0, 0)).2
      | .Mean => i32mean (bucket.records.map (·.2))
      | .Start =>
        if (bucket.records.headD (0, 0)).1 = bucket.bstart ∨
            opts.gap_fill = some .Default then
          (bucket.records.headD (0, 0)).2
        else last_record.2
      | .Sum => i32sum (bucket.records.map (·.2)))]
  else
    match opts.gap_fill with
    | some .Default => values ++ [(bucket.bstart, 0)]
    | some .Previous => values ++ [(bucket.bstart, last_record.2)]
    | none => values

/-- The `while bucket.end <= record.0` roll-forward loop of
`gather_buckets` (lines 228-233): conclude each intermediate empty bucket
and advance `[bucket.start, bucket.end)` by `interval`.  Fuelled: with
`interval > 0` each iteration strictly increases `bend`, and the fuel
passed by `gather_loop` suffices (claim C9); with `interval = 0` the source
loops forever, which the embedding reports as `modelDiverged`. -/
def roll_forward (opts : PoolingOptions) (last_record : Rec) (rts : Nat) :
    Nat → List Rec → Nat → Nat → Except IoErr (List Rec × Nat × Nat)
| fuel, values, bstart, bend =>
  if bend ≤ rts then
    match fuel with
    | 0 => .error .modelDiverged
    | fuel + 1 =>
      roll_forward opts last_record rts fuel
        (conclude_bucket ⟨[], bstart, bend⟩ values last_record opts)
        bend (bend + opts.interval)
  else .ok (values, bstart, bend)

/-- The `for _ in 1..record_count` loop of `gather_buckets` (lines
211-237) followed by the final `conclude_bucket` (line 239): `n` is the
number of records still to read, `reader` the rest of the file from the
current position. -/
def gather_loop (opts : PoolingOptions) :
    Nat → List Rec → Bucket → Rec → List Rec → Except IoErr (List Rec)
| 0, _, bucket, last_record, values =>
  .ok (conclude_bucket bucket values last_record opts)
| n + 1, reader, bucket, last_record, values =>
  match reader with
  | [] => .error .unexpectedEof
  | record :: rest =>
    if bucket.bend ≤ record.1 then
      let values1 := conclude_bucket bucket values last_record opts
      let last_record1 :=
        if bucket.records ≠ [] then bucket.records.getLastD last_record else last_record
      match roll_forward opts last_record1 record.1 (record.1 + 1) values1
          bucket.bend (bucket.bend + opts.interval) with
      | .error e => .error e
      | .ok (values2, bstart2, bend2) =>
        gather_loop opts n rest ⟨[record], bstart2, bend2⟩ last_record1 values2
    else
      gather_loop opts n rest ⟨bucket.records ++ [record], bucket.bstart, bucket.bend⟩
        last_record values

/-- `gather_buckets` (`src/storage/file/pooled_time_series.rs` lines
147-242): read `record_count = (end_offset - start_offset) / item_size + 1`
records sequentially from `reader`, bucket them starting from the anchor
`start_time`, and emit one value per concluded bucket. -/
def gather_buckets (reader : List Rec) (opts : PoolingOptions)
    (start_time : Nat) (start_offset end_offset : Nat) :
    Except IoErr (List Rec) :=
  let record_count := (end_offset - start_offset) / item_size + 1
  match reader with
  | [] => .error .unexpectedEof
  | first_record :: rest =>
    let bucket : Bucket :=
      ⟨if first_record.1 = start_time then [first_record] else [],
        start_time, start_time + opts.interval⟩
    gather_loop opts (record_count - 1) rest bucket first_record []

/-- `PooledTimeSeries::pool_all` (`src/storage/file/pooled_time_series.rs`
lines 26-48): reset to the beginning and gather from offset `0` to
`end_offset` with anchor `first_key`. -/
def pool_all (st : TsStore) (opts : PoolingOptions) : Except IoErr (List Rec) :=
  gather_buckets st.recs opts st.first_key 0 st.end_offset

/-- Specification helper (claim C7): the first scanned record falling in the
bucket `[t, t + iv)` — for a non-empty bucket of a `gather_buckets` run this
is the bucket's first record. -/
def firstInBucket (scanned : List Rec) (t iv : Nat) : Option Rec :=
  (scanned.filter (fun r => t ≤ r.1 && r.1 < t + iv)).head?

/-- Specification helper (claim C7): the last scanned record with timestamp
strictly before `t` — the carry-forward record in force when the bucket
labelled `t` is concluded. -/
def lastBeforeBucket (scanned : List Rec) (t : Nat) : Option Rec :=
  (scanned.filter (fun r => r.1 < t)).getLast?

/-- Consecutive record timestamps each increase by exactly 1 (claim C8). -/
def contiguousKeys : List Rec → Bool
| [] => true
| [_] => true
| a :: b :: rest => b.1 = a.1 + 1 && contiguousKeys (b :: rest)

/-- Specification predicate (claim C7, amended): the emitted pair `e` of a
`Start`-pooling `gather_buckets` run over `stream` (whose first scanned
record is `firstRec`) is correct.  For a non-empty bucket (its first record
`f` is the first scanned record in the window `[e.1, e.1 + interval)`): if
`f.1 = e.1` or `gap_fill = Some(Default)` the emitted value is `f.2`,
otherwise it is the value of the last scanned record with timestamp
strictly before the bucket start (`firstRec` when there is none), which
need not lie in any earlier bucket.  For an empty bucket the emission is
the gap-fill value over the same carry. -/
def emitOK (stream : List Rec) (firstRec : Rec) (opts : PoolingOptions)
    (e : Rec) : Bool :=
  match firstInBucket stream e.1 opts.interval with
  | some f =>
    if f.1 = e.1 ∨ opts.gap_fill = some GapFillMethod.Default then
      decide (e.2 = f.2)
    else
      decide (e.2 = ((lastBeforeBucket stream e.1).getD firstRec).2)
  | none =>
    match opts.gap_fill with
    | some .Default => decide (e.2 = 0)
    | some .Previous =>
      decide (e.2 = ((lastBeforeBucket stream e.1).getD firstRec).2)
    | none => false

/-! # Lemmas

## Decimal digits and the codec round-trips (claim C4) -/

theorem digitsVal_append_single (ds : List Nat) (d : Nat) :
    digitsVal (ds ++ [d]) = 10 * digitsVal ds + d := by
  simp [digitsVal, List.foldl_append]

theorem natDigitsAux_val : ∀ fuel n, n < fuel →
    digitsVal (natDigitsAux fuel n) = n := by
  intro fuel
  induction fuel with
  | zero => intro n h; omega
  | succ f ih =>
    intro n h
    by_cases h10 : n < 10
    · simp [natDigitsAux, h10, digitsVal]
    · have hpos : 0 < n := by omega
      have hlt : n / 10 < n := Nat.div_lt_self hpos (by norm_num)
      have hf : n / 10 < f := by omega
      simp [natDigitsAux, h10, digitsVal_append_single, ih _ hf, Nat.div_add_mod]

theorem natDigitsAux_lt10 : ∀ fuel n, n < fuel →
    ∀ d ∈ natDigitsAux fuel n, d < 10 := by
  intro fuel
  induction fuel with
  | zero => intro n h; omega
  | succ f ih =>
    intro n h d hd
    by_cases h10 : n < 10
    · simp [natDigitsAux, h10] at hd
      omega
    · have hpos : 0 < n := by omega
      have hlt : n / 10 < n := Nat.div_lt_self hpos (by norm_num)
      have hf : n / 10 < f := by omega
      simp [natDigitsAux, h10] at hd
      rcases hd with hd | hd
      · exact ih _ hf d hd
      · omega

theorem natDigitsAux_ne_nil : ∀ fuel n, n < fuel → natDigitsAux fuel n ≠ [] := by
  intro fuel
  induction fuel with
  | zero => intro n h; omega
  | succ f ih =>
    intro n h
    by_cases h10 : n < 10
    · simp [natDigitsAux, h10]
    · simp [natDigitsAux, h10]

theorem natDigitsAux_len_le : ∀ fuel n k, n < fuel → 0 < k → n < 10 ^ k →
    (natDigitsAux fuel n).length ≤ k := by
  intro fuel
  induction fuel with
  | zero => intro n k h; omega
  | succ f ih =>
    intro n k h hk hn
    by_cases h10 : n < 10
    · simp [natDigitsAux, h10]
      omega
    · have hpos : 0 < n := by omega
      have hlt : n / 10 < n := Nat.div_lt_self hpos (by norm_num)
      have hf : n / 10 < f := by omega
      have hk1 : 1 < k := by
        by_contra hcon
        have hk0 : k = 1 := by omega
        rw [hk0] at hn
        simp at hn
        omega
      have hp : 10 ^ (k - 1) * 10 = 10 ^ k := by
        rw [← pow_succ]
        congr 1
        omega
      have hdiv : n / 10 < 10 ^ (k - 1) := by
        rw [Nat.div_lt_iff_lt_mul (by norm_num), hp]
        exact hn
      have := ih (n / 10) (k - 1) hf (by omega) hdiv
      simp [natDigitsAux, h10]
      omega

theorem natDigitsAux_len_ge : ∀ fuel n k, n < fuel → 10 ^ k ≤ n →
    k < (natDigitsAux fuel n).length := by
  intro fuel
  induction fuel with
  | zero => intro n k h; omega
  | succ f ih =>
    intro n k h hn
    by_cases h10 : n < 10
    · have hk0 : k = 0 := by
        by_contra hcon
        have : 10 ≤ 10 ^ k := by
          calc 10 = 10 ^ 1 := by norm_num
          _ ≤ 10 ^ k := Nat.pow_le_pow_right (by norm_num) (by omega)
        omega
      simp [natDigitsAux, h10, hk0]
    · have hpos : 0 < n := by omega
      have hlt : n / 10 < n := Nat.div_lt_self hpos (by norm_num)
      have hf : n / 10 < f := by omega
      rcases Nat.eq_zero_or_pos k with hk0 | hkpos
      · have h1 : 0 < (natDigitsAux f (n / 10)).length :=
          List.length_pos.mpr (natDigitsAux_ne_nil f (n / 10) hf)
        simp [natDigitsAux, h10, hk0]
      · have hp : 10 ^ (k - 1) * 10 = 10 ^ k := by
          rw [← pow_succ]
          congr 1
          omega
        have hdiv : 10 ^ (k - 1) ≤ n / 10 := by
          rw [Nat.le_div_iff_mul_le (by norm_num), hp]
          exact hn
        have := ih (n / 10) (k - 1) hf hdiv
        simp [natDigitsAux, h10]
        omega

theorem natDigits_val (n : Nat) : digitsVal (natDigits n) = n :=
  natDigitsAux_val (n + 1) n (Nat.lt_succ_self n)

theorem natDigits_lt10 (n : Nat) : ∀ d ∈ natDigits n, d < 10 :=
  natDigitsAux_lt10 (n + 1) n (Nat.lt_succ_self n)

theorem natDigits_ne_nil (n : Nat) : natDigits n ≠ [] :=
  natDigitsAux_ne_nil (n + 1) n (Nat.lt_succ_self n)

theorem natDigits_len_le (n k : Nat) (hk : 0 < k) (hn : n < 10 ^ k) :
    (natDigits n).length ≤ k :=
  natDigitsAux_len_le (n + 1) n k (Nat.lt_succ_self n) hk hn

theorem natDigits_len_ge (n k : Nat) (hn : 10 ^ k ≤ n) :
    k < (natDigits n).length :=
  natDigitsAux_len_ge (n + 1) n k (Nat.lt_succ_self n) hn

theorem parseDigitsCore_map (ds : List Nat) : ∀ acc, (∀ d ∈ ds, d < 10) →
    parseDigitsCore acc (ds.map (fun d => 48 + d)) =
      some (ds.foldl (fun a d => 10 * a + d) acc) := by
  induction ds with
  | nil => intro acc _; simp [parseDigitsCore]
  | cons d rest ih =>
    intro acc hds
    have hd : d < 10 := hds d (by simp)
    have hdig : isDigitB (48 + d) = true := by
      simp [isDigitB]
      omega
    simp only [List.map_cons, parseDigitsCore, hdig, if_true, List.foldl_cons]
    have : 48 + d - 48 = d := by omega
    rw [this]
    exact ih (10 * acc + d) (fun x hx => hds x (by simp [hx]))

theorem foldl_val_replicate_zero (k : Nat) (ds : List Nat) :
    (List.replicate k 0 ++ ds).foldl (fun a d => 10 * a + d) 0 =
      ds.foldl (fun a d => 10 * a + d) 0 := by
  induction k with
  | zero => simp
  | succ m ih => simpa [List.replicate_succ] using ih

/-- A zero-left-padded digit string parses to the value of its digits. -/
theorem parseDigits_padded (k : Nat) (ds : List Nat) (hds : ∀ d ∈ ds, d < 10)
    (hne : ds ≠ []) :
    parseDigits ((List.replicate k 0 ++ ds).map (fun d => 48 + d)) =
      some (digitsVal ds) := by
  have hds2 : ∀ d ∈ List.replicate k 0 ++ ds, d < 10 := by
    intro d hd
    rcases List.mem_append.mp hd with hd | hd
    · have := List.eq_of_mem_replicate hd
      omega
    · exact hds d hd
  have hne2 : List.replicate k 0 ++ ds ≠ [] := by
    simp [hne]
  rw [parseDigits, if_neg (by simpa using hne2)]
  rw [parseDigitsCore_map _ 0 hds2]
  rw [foldl_val_replicate_zero]
  rfl

/-- Every byte of `natBytes n` is an ASCII digit. -/
theorem natBytes_mem (n : Nat) : ∀ b ∈ natBytes n, 48 ≤ b ∧ b ≤ 57 := by
  intro b hb
  rcases List.mem_map.mp hb with ⟨d, hd, rfl⟩
  have := natDigits_lt10 n d hd
  omega

/-- `parseDigits` inverts `natBytes`. -/
theorem parseDigits_natBytes (n : Nat) : parseDigits (natBytes n) = some n := by
  have h := parseDigits_padded 0 (natDigits n) (natDigits_lt10 n) (natDigits_ne_nil n)
  simpa [natBytes, natDigits_val] using h

/-- `parseDigits` inverts zero-left-padded `natBytes`. -/
theorem parseDigits_padded_natBytes (k n : Nat) :
    parseDigits (List.replicate k 48 ++ natBytes n) = some n := by
  have h := parseDigits_padded k (natDigits n) (natDigits_lt10 n) (natDigits_ne_nil n)
  have he : (List.replicate k 0 ++ natDigits n).map (fun d => 48 + d) =
      List.replicate k 48 ++ natBytes n := by
    simp [natBytes, List.map_append, List.map_replicate]
  rw [he] at h
  rw [h, natDigits_val]

theorem head?_digit_ge_48 (l : List Nat) (hl : ∀ b ∈ l, 48 ≤ b ∧ b ≤ 57) :
    ∀ b, l.head? = some b → 48 ≤ b := by
  intro b hb
  exact (hl b (List.mem_of_mem_head? hb)).1

/-- Bytes of a zero/space-left-padded digit rendering are never a sign byte
at the head. -/
theorem padded_digits_head_ne (k pad : Nat) (hpad : 48 ≤ pad) (n : Nat)
    (s : Nat) (hs : s < 48) :
    (List.replicate k pad ++ natBytes n).head? ≠ some s := by
  intro hcon
  have hmem := List.mem_of_mem_head? hcon
  rcases List.mem_append.mp hmem with hm | hm
  · have := List.eq_of_mem_replicate hm
    omega
  · have := natBytes_mem n s hm
    omega

/-- `padLeft` as an explicit replicate-append. -/
theorem padLeft_eq (b w : Nat) (l : List Nat) :
    padLeft b w l = List.replicate (w - l.length) b ++ l := rfl

/-- For a rendering at least as wide as the field, `padLeft` pads nothing. -/
theorem padLeft_of_le (b w : Nat) (l : List Nat) (h : w ≤ l.length) :
    padLeft b w l = l := by
  simp [padLeft, Nat.sub_eq_zero_of_le h]

/-- Round-trip for the `Timestamp` codec. -/
theorem ts_from_into (t : Nat) (h : t < 2 ^ 64) :
    ts_from_bytes (ts_into_bytes t) = .ok t := by
  have hinto : ts_into_bytes t =
      List.replicate (13 - (natBytes t).length) 48 ++ natBytes t := by
    rw [ts_into_bytes]
    simp only [ts_size]
    rw [padLeft_eq]
  have h43 := padded_digits_head_ne (13 - (natBytes t).length) 48 (by omega) t 43
    (by omega)
  have hparse := parseDigits_padded_natBytes (13 - (natBytes t).length) t
  rw [ts_from_bytes, hinto, parseU64]
  simp only [if_neg h43, hparse]
  have h64 : t < 18446744073709551616 := h
  simp [h64]

/-- Round-trip for the `i32` codec in the cases where the 4-character
right-aligned rendering has no leading whitespace. -/
theorem i32_from_into (v : Int) (hwide : 1000 ≤ v ∨ v ≤ -100)
    (hlo : -(2 ^ 31) ≤ v) (hhi : v < 2 ^ 31) :
    i32_from_bytes (i32_into_bytes v) = .ok v := by
  rcases hwide with hpos | hneg
  · have hv0 : ¬ v < 0 := by omega
    have habs : 1000 ≤ v.natAbs := by omega
    have hlen : 4 ≤ (natBytes v.natAbs).length := by
      have := natDigits_len_ge v.natAbs 3 (by norm_num; omega)
      simp [natBytes]
      omega
    have hinto : i32_into_bytes v = natBytes v.natAbs := by
      rw [i32_into_bytes]
      simp only [i32_size]
      rw [intBytes, if_neg hv0, padLeft_of_le _ _ _ hlen]
    have h45 : (natBytes v.natAbs).head? ≠ some 45 := by
      have := padded_digits_head_ne 0 48 (by omega) v.natAbs 45 (by omega)
      simpa using this
    have h43 : (natBytes v.natAbs).head? ≠ some 43 := by
      have := padded_digits_head_ne 0 48 (by omega) v.natAbs 43 (by omega)
      simpa using this
    have hparseS : parseSigned (2 ^ 31) (natBytes v.natAbs) = some v := by
      rw [parseSigned, if_neg h45, if_neg h43, parseDigits_natBytes]
      have hbound : v.natAbs < 2 ^ 31 := by omega
      simp only [hbound, if_true]
      rw [Int.natAbs_of_nonneg (by omega)]
    rw [i32_from_bytes, hinto, hparseS]
  · have hv0 : v < 0 := by omega
    have habs : 100 ≤ v.natAbs := by omega
    have hlen : 3 ≤ (natBytes v.natAbs).length := by
      have := natDigits_len_ge v.natAbs 2 (by norm_num; omega)
      simp [natBytes]
      omega
    have hlen4 : 4 ≤ (intBytes v).length := by
      rw [intBytes, if_pos hv0]
      simp
      omega
    have hinto : i32_into_bytes v = 45 :: natBytes v.natAbs := by
      rw [i32_into_bytes]
      simp only [i32_size]
      rw [padLeft_of_le _ _ _ hlen4, intBytes, if_pos hv0]
    have hparseS : parseSigned (2 ^ 31) (45 :: natBytes v.natAbs) = some v := by
      rw [parseSigned]
      simp only [List.head?_cons, List.tail_cons, if_pos rfl]
      rw [parseDigits_natBytes]
      have hbound : v.natAbs ≤ 2 ^ 31 := by omega
      simp only [hbound, if_true]
      congr 1
      omega
    rw [i32_from_bytes, hinto, hparseS]

theorem dropWhile_ws_replicate (k : Nat) (ds : List Nat) :
    List.dropWhile (fun b => isWsB b) (List.replicate k 32 ++ ds) =
      List.dropWhile (fun b => isWsB b) ds := by
  induction k with
  | zero => simp
  | succ m ih => simpa [List.replicate_succ, List.dropWhile] using ih

theorem dropWhile_ws_digits (ds : List Nat) (hds : ∀ b ∈ ds, 48 ≤ b ∧ b ≤ 57) :
    List.dropWhile (fun b => isWsB b) ds = ds := by
  cases ds with
  | nil => rfl
  | cons b rest =>
    have hb := hds b (by simp)
    have hws : isWsB b = false := by
      simp [isWsB]
      omega
    simp [List.dropWhile, hws]

/-- `str::trim` on a space-left-padded digit string yields the digits. -/
theorem trimB_padded_digits (k : Nat) (ds : List Nat)
    (hds : ∀ b ∈ ds, 48 ≤ b ∧ b ≤ 57) :
    trimB (List.replicate k 32 ++ ds) = ds := by
  rw [trimB, dropWhile_ws_replicate, dropWhile_ws_digits ds hds]
  rw [dropWhile_ws_digits ds.reverse (fun b hb => hds b (List.mem_reverse.mp hb))]
  exact List.reverse_reverse ds

/-- Round-trip for the `Usd` codec on nonnegative values. -/
theorem usd_from_into (u : Usd) (h0 : 0 ≤ u.value) (hhi : u.value < 2 ^ 63) :
    usd_from_bytes (usd_into_bytes u) = .ok u := by
  have hw0 : 0 ≤ u.whole := Int.tdiv_nonneg h0 (by norm_num)
  have hf0 : 0 ≤ u.fractional := Int.tmod_nonneg _ h0
  have hf100 : u.fractional < 100 := Int.tmod_lt_of_pos _ (by norm_num)
  have hwle : u.whole ≤ u.value := by
    rw [Usd.whole, Int.tdiv_eq_ediv h0 (by norm_num)]
    exact Int.ediv_le_self _ h0
  set wn := u.whole.natAbs with hwn
  set fn := u.fractional.natAbs with hfn
  have hwcast : (wn : Int) = u.whole := Int.natAbs_of_nonneg hw0
  have hfcast : (fn : Int) = u.fractional := Int.natAbs_of_nonneg hf0
  have hfn100 : fn < 100 := by omega
  have hwbound : wn < 2 ^ 63 := by omega
  -- the fractional rendering is exactly two digit bytes
  have hflen : (natBytes fn).length ≤ 2 := by
    have := natDigits_len_le fn 2 (by norm_num) (by norm_num; omega)
    simpa [natBytes] using this
  set f2 := List.replicate (2 - (natBytes fn).length) 48 ++ natBytes fn with hf2
  have hf2len : f2.length = 2 := by
    rw [hf2]
    simp
    omega
  have hfrac2 : intBytesZeroPad usdMinorDigits u.fractional = f2 := by
    rw [intBytesZeroPad, if_neg (by omega), ← hfcast]
    simp only [Int.natAbs_ofNat]
    rw [padLeft_eq]
    simp [usdMinorDigits, hf2]
  have hwhole : intBytes u.whole = natBytes wn := by
    rw [intBytes, if_neg (by omega), hwn]
  set wl := (natBytes wn).length with hwl
  have hwl1 : 1 ≤ wl := by
    rw [hwl, natBytes]
    have := natDigits_ne_nil wn
    cases hne : natDigits wn with
    | nil => exact absurd hne this
    | cons a l => simp [hne]
  set p := 9 - (wl + 3) with hp
  have hdisplay : usdDisplay u = natBytes wn ++ [46] ++ f2 := by
    rw [usdDisplay, hwhole, hfrac2]
  have hinto : usd_into_bytes u =
      List.replicate p 32 ++ (natBytes wn ++ [46] ++ f2) := by
    rw [usd_into_bytes, hdisplay, padLeft_eq]
    congr 2
    simp [usd_size, usdMajorDigits, usdMinorDigits, hf2len, hp]
  set bs := List.replicate p 32 ++ (natBytes wn ++ [46] ++ f2) with hbs
  have hlen : bs.length = p + wl + 3 := by
    rw [hbs]
    simp [hf2len]
    omega
  have htake : bs.take (bs.length - usdMinorDigits - 1) =
      List.replicate p 32 ++ natBytes wn := by
    have hsplit : bs = (List.replicate p 32 ++ natBytes wn) ++ ([46] ++ f2) := by
      rw [hbs]
      simp
    have hlen2 : (List.replicate p 32 ++ natBytes wn).length = p + wl := by simp
    rw [hsplit]
    have : bs.length - usdMinorDigits - 1 = p + wl := by
      rw [hlen]
      simp [usdMinorDigits]
    rw [hsplit] at this
    rw [this, ← hlen2, List.take_left]
  have hdrop : bs.drop (bs.length - usdMinorDigits) = f2 := by
    have hsplit : bs = (List.replicate p 32 ++ natBytes wn ++ [46]) ++ f2 := by
      rw [hbs]
      simp
    have hlen2 : (List.replicate p 32 ++ natBytes wn ++ [46]).length = p + wl + 1 := by
      simp
      omega
    rw [hsplit]
    have : bs.length - usdMinorDigits = p + wl + 1 := by
      rw [hlen]
      simp [usdMinorDigits]
    rw [hsplit] at this
    rw [this, ← hlen2, List.drop_left]
  have htrim : trimB (bs.take (bs.length - usdMinorDigits - 1)) = natBytes wn := by
    rw [htake]
    exact trimB_padded_digits p (natBytes wn) (natBytes_mem wn)
  have hparseW : parseSigned (2 ^ 63) (trimB (bs.take (bs.length - usdMinorDigits - 1))) =
      some u.whole := by
    rw [htrim, parseSigned]
    have h45 : (natBytes wn).head? ≠ some 45 := by
      have := padded_digits_head_ne 0 48 (by omega) wn 45 (by omega)
      simpa using this
    have h43 : (natBytes wn).head? ≠ some 43 := by
      have := padded_digits_head_ne 0 48 (by omega) wn 43 (by omega)
      simpa using this
    rw [if_neg h45, if_neg h43, parseDigits_natBytes]
    simp only [hwbound, if_true]
    rw [hwcast]
  have hparseF : parseSigned (2 ^ 63) (bs.drop (bs.length - usdMinorDigits)) =
      some u.fractional := by
    rw [hdrop, hf2, parseSigned]
    have h45 := padded_digits_head_ne (2 - (natBytes fn).length) 48 (by omega) fn 45
      (by omega)
    have h43 := padded_digits_head_ne (2 - (natBytes fn).length) 48 (by omega) fn 43
      (by omega)
    rw [if_neg h45, if_neg h43, parseDigits_padded_natBytes]
    have hfb : fn < 2 ^ 63 := by omega
    simp only [hfb, if_true]
    rw [hfcast]
  have hlen4 : usdMinorDigits + 2 ≤ bs.length := by
    rw [hlen]
    simp [usdMinorDigits]
    omega
  rw [hinto]
  simp only [usd_from_bytes]
  simp only [if_pos hlen4, hparseW, hparseF]
  have hval : u.whole * 10 ^ usdMinorDigits + u.fractional = u.value := by
    rw [Usd.whole, Usd.fractional]
    simp only [usdMinorDigits]
    have := Int.tdiv_add_tmod u.value ((10 : Int) ^ 2)
    push_cast at this ⊢
    linarith
  rw [hval]

/-! ## The byte-level store: append and reopen (claims C3 and C5) -/

theorem padLeft_length_of_le (b w : Nat) (l : List Nat) (h : l.length ≤ w) :
    (padLeft b w l).length = w := by
  simp [padLeft]
  omega

theorem ts_into_bytes_length (k : Nat) (hk : k < 10 ^ 13) :
    (ts_into_bytes k).length = 13 := by
  have hlen : (natBytes k).length ≤ 13 := by
    have := natDigits_len_le k 13 (by norm_num) hk
    simpa [natBytes] using this
  rw [ts_into_bytes]
  simp only [ts_size]
  exact padLeft_length_of_le _ _ _ hlen

theorem i32_into_bytes_length (v : Int) (hlo : -999 ≤ v) (hhi : v ≤ 9999) :
    (i32_into_bytes v).length = 4 := by
  have h3 : (10 : Nat) ^ 3 = 1000 := by norm_num
  have h4 : (10 : Nat) ^ 4 = 10000 := by norm_num
  have hlen : (intBytes v).length ≤ 4 := by
    rw [intBytes]
    by_cases hv : v < 0
    · rw [if_pos hv]
      have habs : v.natAbs < 10 ^ 3 := by omega
      have := natDigits_len_le v.natAbs 3 (by norm_num) habs
      simp [natBytes]
      omega
    · rw [if_neg hv]
      have habs : v.natAbs < 10 ^ 4 := by omega
      have := natDigits_len_le v.natAbs 4 (by norm_num) habs
      simp [natBytes]
      omega
  rw [i32_into_bytes]
  simp only [i32_size]
  exact padLeft_length_of_le _ _ _ hlen

theorem write_record_length (k : Nat) (v : Int) (h : inRangeKV (k, v)) :
    (write_record k v).length = item_size := by
  obtain ⟨hk, hlo, hhi⟩ := h
  rw [write_record]
  simp [ts_into_bytes_length k hk, i32_into_bytes_length v hlo hhi, item_size,
    ts_size, i32_size]

theorem recordsBytes_cons (p : Nat × Int) (rest : List (Nat × Int)) :
    recordsBytes (p :: rest) = write_record p.1 p.2 ++ recordsBytes rest := by
  simp [recordsBytes]

theorem recordsBytes_length (recs : List (Nat × Int))
    (h : ∀ p ∈ recs, inRangeKV p) :
    (recordsBytes recs).length = recs.length * item_size := by
  induction recs with
  | nil => simp [recordsBytes]
  | cons p rest ih =>
    rw [recordsBytes_cons]
    simp only [List.length_append, List.length_cons]
    rw [write_record_length p.1 p.2 (h p (by simp)),
      ih (fun q hq => h q (by simp [hq]))]
    ring

theorem getLastD_irrel (l : List (Nat × Int)) (d d' : Nat × Int)
    (h : l ≠ []) : l.getLastD d = l.getLastD d' := by
  rw [List.getLastD_eq_getLast?, List.getLastD_eq_getLast?,
    List.getLast?_eq_getLast l h]
  rfl

/-- The first `K::size()` bytes of an in-range record are the key bytes. -/
theorem write_record_take (k : Nat) (v : Int) (hk : k < 10 ^ 13) :
    (write_record k v).take ts_size = ts_into_bytes k := by
  rw [write_record, List.append_assoc, List.append_assoc]
  have hlen := ts_into_bytes_length k hk
  have hsz : ts_size = (ts_into_bytes k).length := by
    simp [ts_size, hlen]
  rw [hsz, List.take_left]

theorem recordsBytes_take_key (p : Nat × Int) (rest : List (Nat × Int))
    (hk : p.1 < 10 ^ 13) :
    (recordsBytes (p :: rest)).take ts_size = ts_into_bytes p.1 := by
  rw [recordsBytes_cons, write_record, List.append_assoc, List.append_assoc,
    List.append_assoc]
  have hlen := ts_into_bytes_length p.1 hk
  have hsz : ts_size = (ts_into_bytes p.1).length := by
    simp [ts_size, hlen]
  rw [hsz, List.take_left]

/-- Dropping all but the last record's bytes yields the last record. -/
theorem recordsBytes_drop_last (recs : List (Nat × Int))
    (h : ∀ p ∈ recs, inRangeKV p) (hne : recs ≠ []) :
    (recordsBytes recs).drop ((recs.length - 1) * item_size) =
      write_record (recs.getLastD (0, 0)).1 (recs.getLastD (0, 0)).2 := by
  induction recs with
  | nil => exact absurd rfl hne
  | cons p rest ih =>
    cases rest with
    | nil => simp [recordsBytes]
    | cons q rest2 =>
      rw [recordsBytes_cons]
      have hlen1 := write_record_length p.1 p.2 (h p (by simp))
      have hdrop : ((p :: q :: rest2).length - 1) * item_size =
          (write_record p.1 p.2).length + ((q :: rest2).length - 1) * item_size := by
        rw [hlen1]
        simp
        ring
      rw [hdrop, List.drop_append]
      rw [ih (fun r hr => h r (by simp [hr])) (by simp)]
      have hlast : (p :: q :: rest2).getLastD (0, 0) = (q :: rest2).getLastD (0, 0) := by
        rw [List.getLastD_cons]
        exact getLastD_irrel _ _ _ (by simp)
      rw [hlast]

/-- `store` on a good state with an admissible key extends the record
sequence. -/
theorem store_good (st : FileStorage) (recs : List (Nat × Int))
    (k : Nat) (v : Int) (hg : GoodState st recs)
    (hcond : ¬(st.items > 0 ∧ k ≤ st.last_key)) :
    GoodState (st.store k v).1 (recs ++ [(k, v)]) ∧ (st.store k v).2 = .ok () := by
  obtain ⟨hfile, hitems, hrest⟩ := hg
  rw [FileStorage.store, if_neg hcond]
  refine ⟨⟨?_, ?_, ?_⟩, rfl⟩
  · simp [hfile, recordsBytes, List.map_append, List.flatten_append]
  · simp [hitems]
  · cases hrecs : recs with
    | nil =>
      subst hrecs
      simp at hrest
      subst hrest
      simp [emptyStorage]
    | cons r0 rtail =>
      subst hrecs
      simp at hrest
      obtain ⟨hfk, hlk, heo⟩ := hrest
      have hitems0 : st.items ≠ 0 := by
        rw [hitems]
        simp
      simp only [List.cons_append, List.isEmpty_cons, Bool.false_eq_true, if_false]
      refine ⟨?_, ?_, ?_⟩
      · simp [if_neg hitems0, hfk]
      · rw [← List.cons_append]
        rw [List.getLastD_eq_getLast?, List.getLast?_concat]
        rfl
      · rw [if_neg hitems0, heo]
        simp
        ring

/-- A successful `store_list` run from a good state: the final state is
good for the extended sequence, the new keys strictly ascend, and the first
new key exceeds the old `last_key` when the store was non-empty. -/
theorem store_list_good : ∀ (kvs : List (Nat × Int)) (recs : List (Nat × Int))
    (st st' : FileStorage), GoodState st recs → store_list st kvs = some st' →
    GoodState st' (recs ++ kvs) ∧
    List.Chain' (fun a b => a.1 < b.1) kvs ∧
    (0 < st.items → ∀ b ∈ kvs.head?, st.last_key < b.1) := by
  intro kvs
  induction kvs with
  | nil =>
    intro recs st st' hg hrun
    rw [store_list] at hrun
    cases hrun
    refine ⟨by simpa using hg, List.chain'_nil, ?_⟩
    intro _ b hb
    simp at hb
  | cons p rest ih =>
    intro recs st st' hg hrun
    obtain ⟨k, v⟩ := p
    by_cases hcond : st.items > 0 ∧ k ≤ st.last_key
    · rw [store_list, FileStorage.store, if_pos hcond] at hrun
      simp at hrun
    · have hstep := store_good st recs k v hg hcond
      rw [store_list] at hrun
      rcases hsp : st.store k v with ⟨st1, res⟩
      rw [hsp] at hrun hstep
      rcases res with e | u
      · simp at hstep
      · simp only at hrun hstep
        have hg1 : GoodState st1 (recs ++ [(k, v)]) := hstep.1
        have hih := ih (recs ++ [(k, v)]) st1 st' hg1 hrun
        have hitems1 : 0 < st1.items := by
          have h2 : st1.items = (recs ++ [(k, v)]).length := hg1.2.1
          rw [h2]
          simp
        have hlast1 : st1.last_key = k := by
          have hne : ((recs ++ [(k, v)]).isEmpty) = false := by
            cases hre : recs ++ [(k, v)] with
            | nil => simp at hre
            | cons a l => rfl
          have h3 := hg1.2.2
          rw [GoodState] at hg1
          have h4 := hg1.2.2
          rw [hne] at h4
          simp at h4
          exact h4.2.1
        refine ⟨by simpa [List.append_assoc] using hih.1, ?_, ?_⟩
        · rw [List.chain'_cons']
          refine ⟨?_, hih.2.1⟩
          intro b hb
          have hlt := hih.2.2 hitems1 b hb
          rw [hlast1] at hlt
          exact hlt
        · intro hpos b hb
          simp at hb
          cases hb
          have hlt : st.last_key < k := by
            rcases Nat.lt_or_ge st.last_key k with hl | hl
            · exact hl
            · exact absurd ⟨hpos, hl⟩ hcond
          simpa using hlt

theorem lt_pow13_lt_pow64 (t : Nat) (h : t < 10 ^ 13) : t < 2 ^ 64 := by
  have h1 : (10 : Nat) ^ 13 = 10000000000000 := by norm_num
  have h2 : (2 : Nat) ^ 64 = 18446744073709551616 := by norm_num
  omega

/-- Reopening the byte file of a non-empty in-range record sequence
recovers the cached fields. -/
theorem new_recordsBytes (recs : List (Nat × Int))
    (h : ∀ p ∈ recs, inRangeKV p) (hne : recs ≠ []) :
    FileStorage.new (recordsBytes recs) =
      .ok ⟨recordsBytes recs, recs.length, (recs.headD (0, 0)).1,
        (recs.getLastD (0, 0)).1, (recs.length - 1) * item_size⟩ := by
  obtain ⟨p, rest, rfl⟩ : ∃ p rest, recs = p :: rest := by
    cases recs with
    | nil => exact absurd rfl hne
    | cons p rest => exact ⟨p, rest, rfl⟩
  have hlen := recordsBytes_length (p :: rest) h
  have hk1 : p.1 < 10 ^ 13 := (h p (by simp)).1
  have hlastmem : (p :: rest).getLastD (0, 0) ∈ p :: rest := by
    rw [List.getLastD_eq_getLast?, List.getLast?_eq_getLast _ (by simp)]
    simp [List.getLast_mem]
  have hkN : ((p :: rest).getLastD (0, 0)).1 < 10 ^ 13 :=
    (h _ hlastmem).1
  have hmod : (p :: rest).length * item_size % item_size = 0 := Nat.mul_mod_left _ _
  have hge : item_size ≤ (p :: rest).length * item_size := by
    have h1 : 1 ≤ (p :: rest).length := by simp
    calc item_size = 1 * item_size := (one_mul _).symm
    _ ≤ (p :: rest).length * item_size := Nat.mul_le_mul_right _ h1
  have hdiv : (p :: rest).length * item_size / item_size = (p :: rest).length :=
    Nat.mul_div_cancel _ (by norm_num [item_size, ts_size, i32_size])
  have hread1 : ts_from_bytes ((recordsBytes (p :: rest)).take ts_size) = .ok p.1 := by
    rw [recordsBytes_take_key p rest hk1]
    exact ts_from_into p.1 (lt_pow13_lt_pow64 _ hk1)
  have hread2 : ts_from_bytes (((recordsBytes (p :: rest)).drop
      ((p :: rest).length * item_size - item_size)).take ts_size) =
      .ok ((p :: rest).getLastD (0, 0)).1 := by
    have hoff : (p :: rest).length * item_size - item_size =
        ((p :: rest).length - 1) * item_size := by
      have h1 : 1 ≤ (p :: rest).length := by simp
      rw [Nat.sub_mul, one_mul]
    rw [hoff, recordsBytes_drop_last (p :: rest) h (by simp),
      write_record_take _ _ hkN]
    exact ts_from_into _ (lt_pow13_lt_pow64 _ hkN)
  have hoff2 : (p :: rest).length * item_size - item_size =
      ((p :: rest).length - 1) * item_size := by
    rw [Nat.sub_mul, one_mul]
  rw [FileStorage.new]
  simp only [hlen, hmod, if_pos rfl, if_pos hge, hdiv, hread1, hread2]
  simp
  rw [Nat.add_mul, one_mul]
  simp

/-! ## Claim theorems C3 and C5 -/

/-- Claim C3 (confirmed).  For every store state with `items > 0` and every
key `k ≤ last_key`, `store(k, v)` fails with `InvalidInput("Passed key was
equal to or before the last recorded key")` for every value `v`; equality
with `last_key` is rejected, and the returned post-state — file bytes and
cached fields — is exactly the input state. -/
theorem claim_C3 (st : FileStorage) (k : Nat) (v : Int)
    (hitems : 0 < st.items) (hk : k ≤ st.last_key) :
    st.store k v =
      (st, .error (.invalidInput
        ("Passed key was equal to or before the last recorded key"))) := by
  rw [FileStorage.store, if_pos ⟨hitems, hk⟩]

theorem claim_C3_witness :
    0 < (FileStorage.mk (write_record 5 1) 1 5 5 0).items ∧
    (5 : Nat) ≤ (FileStorage.mk (write_record 5 1) 1 5 5 0).last_key ∧
    (FileStorage.mk (write_record 5 1) 1 5 5 0).store 5 7 =
      (FileStorage.mk (write_record 5 1) 1 5 5 0, .error (.invalidInput
        ("Passed key was equal to or before the last recorded key"))) :=
  ⟨by decide, by decide,
    claim_C3 (FileStorage.mk (write_record 5 1) 1 5 5 0) 5 7 (by decide) (by decide)⟩

/-- Claim C5 (corrected).  For a sequence of successful appends to a fresh
empty store whose keys encode in exactly 13 digits (`kᵢ < 10^13`) and whose
values fill the 4-character integer field (`-999 ≤ vᵢ ≤ 9999`): the keys
strictly ascend, the file length is `n * item_size`, and reopening the file
recovers `items = n`, `first_key = k₁`, `last_key = kₙ`.  (Without the
width restriction the claim fails: see the counterexample, where a key
`≥ 10^13` makes a single append produce a 20-byte file.) -/
theorem claim_C5 (kvs : List (Nat × Int)) (st : FileStorage)
    (hrange : ∀ p ∈ kvs, inRangeKV p) (hne : kvs ≠ [])
    (hrun : store_list emptyStorage kvs = some st) :
    List.Chain' (fun a b => a.1 < b.1) kvs ∧
    st.file.length = kvs.length * item_size ∧
    ∃ st2, FileStorage.new st.file = .ok st2 ∧ st2.items = kvs.length ∧
      st2.first_key = (kvs.headD (0, 0)).1 ∧
      st2.last_key = (kvs.getLastD (0, 0)).1 := by
  have hg0 : GoodState emptyStorage [] := by
    refine ⟨rfl, rfl, ?_⟩
    simp [emptyStorage, recordsBytes]
  have hres := store_list_good kvs [] emptyStorage st hg0 hrun
  have hg : GoodState st kvs := by simpa using hres.1
  have hfile : st.file = recordsBytes kvs := hg.1
  refine ⟨hres.2.1, ?_, ?_⟩
  · rw [hfile]
    exact recordsBytes_length kvs hrange
  · rw [hfile]
    refine ⟨_, new_recordsBytes kvs hrange hne, rfl, rfl, rfl⟩

theorem claim_C5_witness :
    (∀ p ∈ [((5 : Nat), (1 : Int)), (7, 2)], inRangeKV p) ∧
    ∃ st, store_list emptyStorage [(5, 1), (7, 2)] = some st ∧
      (List.Chain' (fun a b => a.1 < b.1) [((5 : Nat), (1 : Int)), (7, 2)] ∧
        st.file.length = 2 * item_size ∧
        ∃ st2, FileStorage.new st.file = .ok st2 ∧ st2.items = 2 ∧
          st2.first_key = 5 ∧ st2.last_key = 7) := by
  refine ⟨by decide, (store_list emptyStorage [(5, 1), (7, 2)]).get (by decide), ?_, ?_⟩
  · have h : (store_list emptyStorage [(5, 1), (7, 2)]).isSome = true := by decide
    exact (Option.some_get h).symm
  · exact claim_C5 [(5, 1), (7, 2)] _ (by decide) (by decide)
      (Option.some_get (by decide)).symm

/-- Claim C5 counterexample: the key `10^13` does not fit the 13-digit
field, yet `store` accepts it on an empty store; the resulting file is 20
bytes long, not `1 * item_size = 19` as the claim requires. -/
theorem claim_C5_counterexample :
    (store_list emptyStorage [(10 ^ 13, 1)]).map (fun st => st.file.length) =
      some 20 ∧ 1 * item_size = 19 := by
  constructor
  · decide
  · decide

/-! ## Sorted-file infrastructure for the on-disk binary search
(claims C1, C2, C6) -/

theorem item_size_pos : 0 < item_size := by norm_num [item_size, ts_size, i32_size]

theorem sortedKeys_chain : ∀ l : List Rec,
    sortedKeys l = true ↔ List.Chain' (fun a b : Rec => a.1 < b.1) l
| [] => by simp [sortedKeys]
| [a] => by simp [sortedKeys]
| a :: b :: m => by
  rw [sortedKeys, List.chain'_cons, ← sortedKeys_chain (b :: m)]
  simp

theorem sortedKeys_pairwise (l : List Rec) (h : sortedKeys l = true) :
    List.Pairwise (fun a b : Rec => a.1 < b.1) l := by
  haveI : IsTrans Rec (fun a b : Rec => a.1 < b.1) :=
    ⟨fun a b c h1 h2 => Nat.lt_trans h1 h2⟩
  exact List.chain'_iff_pairwise.mp ((sortedKeys_chain l).mp h)

theorem sortedKeys_tail (a : Rec) (l : List Rec) (h : sortedKeys (a :: l) = true) :
    sortedKeys l = true := by
  rw [sortedKeys_chain] at h ⊢
  exact h.tail

theorem sortedKeys_head_lt (a : Rec) (l : List Rec)
    (h : sortedKeys (a :: l) = true) : ∀ x ∈ l, a.1 < x.1 := by
  have hp := sortedKeys_pairwise _ h
  exact (List.pairwise_cons.mp hp).1

theorem sorted_get_lt (recs : List Rec) (hs : sortedKeys recs = true)
    {i j : Nat} {ri rj : Rec} (hij : i < j)
    (hi : recs.get? i = some ri) (hj : recs.get? j = some rj) : ri.1 < rj.1 := by
  have hp := sortedKeys_pairwise recs hs
  have hilen : i < recs.length := (List.get?_eq_some.mp hi).choose
  have hjlen : j < recs.length := (List.get?_eq_some.mp hj).choose
  have hrel := List.pairwise_iff_get.mp hp ⟨i, hilen⟩ ⟨j, hjlen⟩ hij
  rw [List.get?_eq_get hilen] at hi
  rw [List.get?_eq_get hjlen] at hj
  injection hi with hi
  injection hj with hj
  rw [← hi, ← hj]
  exact hrel

theorem sorted_get_le (recs : List Rec) (hs : sortedKeys recs = true)
    {i j : Nat} {ri rj : Rec} (hij : i ≤ j)
    (hi : recs.get? i = some ri) (hj : recs.get? j = some rj) : ri.1 ≤ rj.1 := by
  rcases Nat.lt_or_ge i j with h | h
  · exact Nat.le_of_lt (sorted_get_lt recs hs h hi hj)
  · have hji : i = j := by omega
    subst hji
    rw [hi] at hj
    injection hj with hj
    rw [hj]

theorem sorted_get_inj (recs : List Rec) (hs : sortedKeys recs = true)
    {i j : Nat} {ri rj : Rec}
    (hi : recs.get? i = some ri) (hj : recs.get? j = some rj)
    (heq : ri.1 = rj.1) : i = j := by
  rcases lt_trichotomy i j with h | h | h
  · have hlt := sorted_get_lt recs hs h hi hj
    exact absurd heq (Nat.ne_of_lt hlt)
  · exact h
  · have hlt := sorted_get_lt recs hs h hj hi
    exact absurd heq.symm (Nat.ne_of_lt hlt)

theorem read_key_at_mul (recs : List Rec) (i : Nat) (ri : Rec)
    (hi : recs.get? i = some ri) :
    read_key_at recs (i * item_size) = .ok ri.1 := by
  rw [read_key_at, Nat.mul_div_cancel _ item_size_pos, hi]

theorem read_record_at_mul (recs : List Rec) (i : Nat) (ri : Rec)
    (hi : recs.get? i = some ri) :
    read_record_at recs (i * item_size) = .ok ri := by
  rw [read_record_at, Nat.mul_div_cancel _ item_size_pos, hi]

theorem range_items_mul (i l : Nat) :
    (l * item_size - i * item_size) / item_size = l - i := by
  rw [← Nat.sub_mul, Nat.mul_div_cancel _ item_size_pos]

/-- `countLT` answers every index-membership question below it. -/
theorem countLT_spec (recs : List Rec) (k : Nat)
    (hs : sortedKeys recs = true) :
    ∀ i ri, recs.get? i = some ri → (ri.1 < k ↔ i < countLT recs k) := by
  induction recs with
  | nil =>
    intro i ri hi
    simp at hi
  | cons r rest ih =>
    intro i ri hi
    have htail := sortedKeys_tail r rest hs
    by_cases hr : r.1 < k
    · have hc : countLT (r :: rest) k = countLT rest k + 1 := by
        simp [countLT, List.countP_cons, hr]
      cases i with
      | zero =>
        rw [List.get?_cons_zero] at hi
        injection hi with hi
        subst hi
        rw [hc]
        constructor
        · intro _
          omega
        · intro _
          exact hr
      | succ i0 =>
        rw [List.get?_cons_succ] at hi
        rw [hc]
        have hiff := ih htail i0 ri hi
        constructor
        · intro h2
          have := hiff.mp h2
          omega
        · intro h2
          exact hiff.mpr (by omega)
    · have hge : k ≤ r.1 := Nat.le_of_not_lt hr
      have hc : countLT (r :: rest) k = 0 := by
        rw [countLT, List.countP_cons]
        have hrest0 : List.countP (fun r => decide (r.1 < k)) rest = 0 := by
          rw [List.countP_eq_zero]
          intro a ha
          have hlt2 := sortedKeys_head_lt r rest hs a ha
          simp only [decide_eq_true_eq]
          omega
        simp [hrest0, hr]
      rw [hc]
      cases i with
      | zero =>
        rw [List.get?_cons_zero] at hi
        injection hi with hi
        subst hi
        constructor
        · intro hcon
          omega
        · intro hcon
          omega
      | succ i0 =>
        rw [List.get?_cons_succ] at hi
        have hmem : ri ∈ rest := List.get?_mem hi
        have hlt2 := sortedKeys_head_lt r rest hs ri hmem
        constructor
        · intro hcon
          omega
        · intro hcon
          omega

/-- `countLE` answers every index-membership question below it. -/
theorem countLE_spec (recs : List Rec) (k : Nat)
    (hs : sortedKeys recs = true) :
    ∀ i ri, recs.get? i = some ri → (ri.1 ≤ k ↔ i < countLE recs k) := by
  induction recs with
  | nil =>
    intro i ri hi
    simp at hi
  | cons r rest ih =>
    intro i ri hi
    have htail := sortedKeys_tail r rest hs
    by_cases hr : r.1 ≤ k
    · have hc : countLE (r :: rest) k = countLE rest k + 1 := by
        simp [countLE, List.countP_cons, hr]
      cases i with
      | zero =>
        rw [List.get?_cons_zero] at hi
        injection hi with hi
        subst hi
        rw [hc]
        constructor
        · intro _
          omega
        · intro _
          exact hr
      | succ i0 =>
        rw [List.get?_cons_succ] at hi
        rw [hc]
        have hiff := ih htail i0 ri hi
        constructor
        · intro h2
          have := hiff.mp h2
          omega
        · intro h2
          exact hiff.mpr (by omega)
    · have hge : k < r.1 := Nat.lt_of_not_le hr
      have hc : countLE (r :: rest) k = 0 := by
        rw [countLE, List.countP_cons]
        have hrest0 : List.countP (fun r => decide (r.1 ≤ k)) rest = 0 := by
          rw [List.countP_eq_zero]
          intro a ha
          have hlt2 := sortedKeys_head_lt r rest hs a ha
          simp only [decide_eq_true_eq]
          omega
        simp [hrest0, hr]
      rw [hc]
      cases i with
      | zero =>
        rw [List.get?_cons_zero] at hi
        injection hi with hi
        subst hi
        constructor
        · intro hcon
          omega
        · intro hcon
          omega
      | succ i0 =>
        rw [List.get?_cons_succ] at hi
        have hmem : ri ∈ rest := List.get?_mem hi
        have hlt2 := sortedKeys_head_lt r rest hs ri hmem
        constructor
        · intro hcon
          omega
        · intro hcon
          omega

/-- `bisect_and_descend` finds an exact match strictly inside the range,
for every retrieval direction. -/
theorem bisect_exact : ∀ (fuel : Nat) (recs : List Rec)
    (dir : Option RetrievalDirection) (k : Nat) (i l j : Nat) (rj : Rec),
    sortedKeys recs = true → l - i ≤ fuel → i < j → j < l → l < recs.length →
    recs.get? j = some rj → rj.1 = k →
    bisect_and_descend fuel recs dir k (i * item_size) (l * item_size) =
      .ok (j * item_size) := by
  intro fuel
  induction fuel with
  | zero =>
    intro recs dir k i l j rj hs hf hij hjl hllen hj hk
    omega
  | succ f ih =>
    intro recs dir k i l j rj hs hf hij hjl hllen hj hk
    simp only [bisect_and_descend, range_items_mul]
    have hil2 : 2 ≤ l - i := by omega
    rw [if_neg (by omega)]
    set c := i + (l - i) / 2 / 1 with hcdef
    have hc : i * item_size + (l - i) / 2 * item_size = (i + (l - i) / 2) * item_size := by
      ring
    rw [hc]
    have hci : i < i + (l - i) / 2 := by omega
    have hcl : i + (l - i) / 2 < l := by omega
    have hclen : i + (l - i) / 2 < recs.length := by omega
    have hgc : recs.get? (i + (l - i) / 2) =
        some (recs.get ⟨i + (l - i) / 2, hclen⟩) := List.get?_eq_get hclen
    set rc := recs.get ⟨i + (l - i) / 2, hclen⟩ with hrc
    simp only [read_key_at_mul recs (i + (l - i) / 2) rc hgc]
    rcases lt_trichotomy k rc.1 with hlt | heq | hgt
    · rw [if_pos hlt]
      have hjc : j < i + (l - i) / 2 := by
        by_contra hno
        have hle : i + (l - i) / 2 ≤ j := by omega
        have := sorted_get_le recs hs hle hgc hj
        omega
      exact ih recs dir k i (i + (l - i) / 2) j rj hs (by omega) hij hjc
        (by omega) hj hk
    · rw [if_neg (by omega), if_neg (by omega)]
      have hjc : j = i + (l - i) / 2 :=
        sorted_get_inj recs hs hj hgc (by omega)
      rw [hjc]
    · rw [if_neg (by omega), if_pos hgt]
      have hjc : i + (l - i) / 2 < j := by
        by_contra hno
        have hle : j ≤ i + (l - i) / 2 := by omega
        have := sorted_get_le recs hs hle hj hgc
        omega
      exact ih recs dir k (i + (l - i) / 2) l j rj hs (by omega) hjc hjl
        hllen hj hk

/-- `bisect_and_descend` with no exact match in the open range narrows to
the adjacent pair around the key and resolves it by direction. -/
theorem bisect_between : ∀ (fuel : Nat) (recs : List Rec)
    (dir : Option RetrievalDirection) (k : Nat) (i l j : Nat) (rj rj1 : Rec),
    sortedKeys recs = true → l - i ≤ fuel → i ≤ j → j < l → l < recs.length →
    recs.get? j = some rj → recs.get? (j + 1) = some rj1 →
    rj.1 < k → k < rj1.1 →
    bisect_and_descend fuel recs dir k (i * item_size) (l * item_size) =
      (match dir with
      | some .Forward => .ok ((j + 1) * item_size)
      | some .Backward => .ok (j * item_size)
      | none => .error (.notFound ("Search key was not found"))) := by
  intro fuel
  induction fuel with
  | zero =>
    intro recs dir k i l j rj rj1 hs hf hij hjl hllen hj hj1 hlo hhi
    omega
  | succ f ih =>
    intro recs dir k i l j rj rj1 hs hf hij hjl hllen hj hj1 hlo hhi
    simp only [bisect_and_descend, range_items_mul]
    by_cases hone : l - i = 1
    · have hji : j = i := by omega
      subst hji
      have hl : l = j + 1 := by omega
      subst hl
      rw [if_pos hone]
    · rw [if_neg hone]
      have hil2 : 2 ≤ l - i := by omega
      have hc : i * item_size + (l - i) / 2 * item_size =
          (i + (l - i) / 2) * item_size := by
        ring
      rw [hc]
      have hci : i < i + (l - i) / 2 := by omega
      have hcl : i + (l - i) / 2 < l := by omega
      have hclen : i + (l - i) / 2 < recs.length := by omega
      have hgc : recs.get? (i + (l - i) / 2) =
          some (recs.get ⟨i + (l - i) / 2, hclen⟩) := List.get?_eq_get hclen
      set rc := recs.get ⟨i + (l - i) / 2, hclen⟩ with hrc
      simp only [read_key_at_mul recs (i + (l - i) / 2) rc hgc]
      rcases lt_trichotomy k rc.1 with hlt | heq | hgt
      · rw [if_pos hlt]
        have hjc : j < i + (l - i) / 2 := by
          by_contra hno
          have hle : i + (l - i) / 2 ≤ j := by omega
          have := sorted_get_le recs hs hle hgc hj
          omega
        exact ih recs dir k i (i + (l - i) / 2) j rj rj1 hs (by omega) hij hjc
          (by omega) hj hj1 hlo hhi
      · exact absurd heq (by
          rcases Nat.lt_or_ge (i + (l - i) / 2) (j + 1) with hcj | hcj
          · have hle : i + (l - i) / 2 ≤ j := by omega
            have := sorted_get_le recs hs hle hgc hj
            omega
          · have := sorted_get_le recs hs hcj hj1 hgc
            omega)
      · rw [if_neg (by omega), if_pos hgt]
        have hjc : i + (l - i) / 2 ≤ j := by
          by_contra hno
          have hle : j + 1 ≤ i + (l - i) / 2 := by omega
          have := sorted_get_le recs hs hle hj1 hgc
          omega
        exact ih recs dir k (i + (l - i) / 2) l j rj rj1 hs (by omega) hjc hjl
          hllen hj hj1 hlo hhi

theorem item_size_eq : item_size = 19 := rfl

theorem read_key_at_zero (recs : List Rec) (r0 : Rec)
    (h : recs.get? 0 = some r0) : read_key_at recs 0 = .ok r0.1 := by
  rw [read_key_at, Nat.zero_div, h]

/-- At an exact match, `countLT` is the match's index. -/
theorem countLT_at_exact (recs : List Rec) (k : Nat)
    (hs : sortedKeys recs = true) (j : Nat) (rj : Rec)
    (hj : recs.get? j = some rj) (hk : rj.1 = k) : countLT recs k = j := by
  have hub : ¬ (j < countLT recs k) := by
    intro hcon
    have := (countLT_spec recs k hs j rj hj).mpr hcon
    omega
  rcases Nat.lt_or_ge (countLT recs k) j with hlt | hge
  · exfalso
    have hjlen : j < recs.length := (List.get?_eq_some.mp hj).choose
    have hclen : countLT recs k < recs.length := by omega
    have hgc : recs.get? (countLT recs k) =
        some (recs.get ⟨countLT recs k, hclen⟩) := List.get?_eq_get hclen
    have hkey := sorted_get_lt recs hs hlt hgc hj
    have := (countLT_spec recs k hs _ _ hgc).mp (by omega)
    omega
  · omega

/-- At an exact match, `countLE` is the match's index plus one. -/
theorem countLE_at_exact (recs : List Rec) (k : Nat)
    (hs : sortedKeys recs = true) (j : Nat) (rj : Rec)
    (hj : recs.get? j = some rj) (hk : rj.1 = k) : countLE recs k = j + 1 := by
  have hlb : j < countLE recs k :=
    (countLE_spec recs k hs j rj hj).mp (by omega)
  rcases Nat.lt_or_ge (j + 1) (countLE recs k) with hlt | hge
  · exfalso
    have hjlen : j + 1 < recs.length := by
      rcases Nat.lt_or_ge (j + 1) recs.length with h | h
      · exact h
      · have := List.countP_le_length (l := recs) (fun r => decide (r.1 ≤ k))
        rw [countLE] at hlt
        omega
    have hg1 : recs.get? (j + 1) = some (recs.get ⟨j + 1, hjlen⟩) :=
      List.get?_eq_get hjlen
    have hkey := sorted_get_lt recs hs (Nat.lt_succ_self j) hj hg1
    have := (countLE_spec recs k hs _ _ hg1).mpr hlt
    omega
  · omega

/-- `binary_search_for_key` finds any stored key exactly, for every
direction (claim C1's core). -/
theorem binary_search_exact (recs : List Rec) (dir : Option RetrievalDirection)
    (k : Nat) (j : Nat) (rj : Rec) (hs : sortedKeys recs = true)
    (hm : 2 ≤ recs.length) (hj : recs.get? j = some rj) (hk : rj.1 = k) :
    binary_search_for_key recs dir k 0 ((recs.length - 1) * item_size) =
      .ok (j * item_size) := by
  set m := recs.length with hmdef
  have h0len : 0 < m := by omega
  have hg0 : recs.get? 0 = some (recs.get ⟨0, h0len⟩) := List.get?_eq_get h0len
  set r0 := recs.get ⟨0, h0len⟩ with hr0
  have hlblen : m - 1 < m := by omega
  have hgl : recs.get? (m - 1) = some (recs.get ⟨m - 1, hlblen⟩) :=
    List.get?_eq_get hlblen
  set rl := recs.get ⟨m - 1, hlblen⟩ with hrl
  have hjlen : j < m := (List.get?_eq_some.mp hj).choose
  have hne : ¬ ((0 : Nat) = (m - 1) * item_size) := by
    rw [item_size_eq]
    omega
  rw [binary_search_for_key, if_neg hne]
  simp only [read_key_at_zero recs r0 hg0]
  have hr0le : r0.1 ≤ rj.1 := sorted_get_le recs hs (by omega) hg0 hj
  rw [if_neg (by omega)]
  by_cases hkeq0 : k = r0.1
  · have hj0 : j = 0 := sorted_get_inj recs hs hj hg0 (by omega)
    rw [if_pos hkeq0, hj0]
    simp
  · rw [if_neg hkeq0]
    simp only [read_key_at_mul recs (m - 1) rl hgl]
    have hrjle : rj.1 ≤ rl.1 := sorted_get_le recs hs (by omega) hj hgl
    rw [if_neg (by omega)]
    by_cases hkeql : k = rl.1
    · have hjl : j = m - 1 := sorted_get_inj recs hs hj hgl (by omega)
      rw [if_pos hkeql, hjl]
    · rw [if_neg hkeql]
      have hj0 : 0 < j := by
        rcases Nat.eq_zero_or_pos j with h | h
        · exfalso
          rw [h, hg0] at hj
          injection hj with hj
          rw [hj] at hkeq0
          exact hkeq0 hk.symm
        · exact h
      have hjm : j < m - 1 := by
        rcases Nat.lt_or_ge j (m - 1) with h | h
        · exact h
        · exfalso
          have : j = m - 1 := by omega
          rw [this, hgl] at hj
          injection hj with hj
          rw [hj] at hkeql
          exact hkeql hk.symm
      have hfuel : m - 1 - 0 ≤ (m - 1) * item_size - 0 := by
        rw [item_size_eq]
        omega
      have hb := bisect_exact ((m - 1) * item_size - 0) recs dir k 0 (m - 1) j rj
        hs hfuel hj0 hjm (by omega) hj hk
      simpa using hb

/-- `binary_search_for_key` with `Forward` on a key not above the last
record returns the offset of the first record with key `≥ k` (claim C2's
lower bound). -/
theorem binary_search_forward (recs : List Rec) (k : Nat)
    (hs : sortedKeys recs = true) (hm : 2 ≤ recs.length)
    (rl : Rec) (hgl : recs.get? (recs.length - 1) = some rl) (hkle : k ≤ rl.1) :
    binary_search_for_key recs (some .Forward) k 0 ((recs.length - 1) * item_size) =
      .ok (countLT recs k * item_size) := by
  set m := recs.length with hmdef
  by_cases hex : ∃ j rj, recs.get? j = some rj ∧ rj.1 = k
  · obtain ⟨j, rj, hj, hk⟩ := hex
    rw [binary_search_exact recs (some .Forward) k j rj hs hm hj hk,
      countLT_at_exact recs k hs j rj hj hk]
  · have h0len : 0 < m := by omega
    have hg0 : recs.get? 0 = some (recs.get ⟨0, h0len⟩) := List.get?_eq_get h0len
    set r0 := recs.get ⟨0, h0len⟩ with hr0
    have hne : ¬ ((0 : Nat) = (m - 1) * item_size) := by
      rw [item_size_eq]
      omega
    rw [binary_search_for_key, if_neg hne]
    simp only [read_key_at_zero recs r0 hg0]
    have hne0 : r0.1 ≠ k := fun hcon => hex ⟨0, r0, hg0, hcon⟩
    rcases Nat.lt_or_ge k r0.1 with hklt | hkge
    · rw [if_pos hklt]
      have hc0 : countLT recs k = 0 := by
        rcases Nat.eq_zero_or_pos (countLT recs k) with h | h
        · exact h
        · exfalso
          have := (countLT_spec recs k hs 0 r0 hg0).mpr h
          omega
      rw [hc0]
      simp
    · have hkgt : r0.1 < k := by omega
      rw [if_neg (by omega), if_neg (by omega)]
      simp only [read_key_at_mul recs (m - 1) rl hgl]
      have hnel : rl.1 ≠ k := fun hcon => hex ⟨m - 1, rl, hgl, hcon⟩
      have hkltl : k < rl.1 := by omega
      rw [if_neg (by omega), if_neg (by omega)]
      set c := countLT recs k with hcdef
      have hc1 : 0 < c := (countLT_spec recs k hs 0 r0 hg0).mp hkgt
      have hcm : c ≤ m - 1 := by
        rcases Nat.lt_or_ge (m - 1) c with h | h
        · exfalso
          have := (countLT_spec recs k hs (m - 1) rl hgl).mpr h
          omega
        · exact h
      have hjlen : c - 1 < m := by omega
      have hgj : recs.get? (c - 1) = some (recs.get ⟨c - 1, hjlen⟩) :=
        List.get?_eq_get hjlen
      set rj := recs.get ⟨c - 1, hjlen⟩ with hrjdef
      have hj1len : c < m := by omega
      have hgj1 : recs.get? c = some (recs.get ⟨c, hj1len⟩) :=
        List.get?_eq_get hj1len
      set rj1 := recs.get ⟨c, hj1len⟩ with hrj1def
      have hjlt : rj.1 < k := (countLT_spec recs k hs (c - 1) rj hgj).mpr (by omega)
      have hj1gt : k < rj1.1 := by
        have hge2 : ¬ rj1.1 < k := by
          intro hcon
          have := (countLT_spec recs k hs c rj1 hgj1).mp hcon
          omega
        have hne2 : rj1.1 ≠ k := fun hcon => hex ⟨c, rj1, hgj1, hcon⟩
        omega
      have hsucc : c - 1 + 1 = c := by omega
      have hfuel : m - 1 - 0 ≤ (m - 1) * item_size - 0 := by
        rw [item_size_eq]
        omega
      have hb := bisect_between ((m - 1) * item_size - 0) recs (some .Forward) k
        0 (m - 1) (c - 1) rj rj1 hs hfuel (by omega) (by omega) (by omega) hgj
        (by rw [hsucc]; exact hgj1) hjlt hj1gt
      simp only [hsucc] at hb
      simpa using hb

/-- `binary_search_for_key` with `Backward` on a key not below the first
record returns the offset of the last record with key `≤ k` (the locator
used by `find_to`). -/
theorem binary_search_backward (recs : List Rec) (k : Nat)
    (hs : sortedKeys recs = true) (hm : 2 ≤ recs.length)
    (r0 : Rec) (hg0 : recs.get? 0 = some r0) (hkge : r0.1 ≤ k) :
    binary_search_for_key recs (some .Backward) k 0 ((recs.length - 1) * item_size) =
      .ok ((countLE recs k - 1) * item_size) := by
  set m := recs.length with hmdef
  have h0len : 0 < m := by omega
  have hlblen : m - 1 < m := by omega
  have hgl : recs.get? (m - 1) = some (recs.get ⟨m - 1, hlblen⟩) :=
    List.get?_eq_get hlblen
  set rl := recs.get ⟨m - 1, hlblen⟩ with hrl
  by_cases hex : ∃ j rj, recs.get? j = some rj ∧ rj.1 = k
  · obtain ⟨j, rj, hj, hk⟩ := hex
    rw [binary_search_exact recs (some .Backward) k j rj hs hm hj hk,
      countLE_at_exact recs k hs j rj hj hk]
    simp
  · have hne : ¬ ((0 : Nat) = (m - 1) * item_size) := by
      rw [item_size_eq]
      omega
    rw [binary_search_for_key, if_neg hne]
    simp only [read_key_at_zero recs r0 hg0]
    have hne0 : r0.1 ≠ k := fun hcon => hex ⟨0, r0, hg0, hcon⟩
    have hkgt : r0.1 < k := by omega
    rw [if_neg (by omega), if_neg (by omega)]
    simp only [read_key_at_mul recs (m - 1) rl hgl]
    set c := countLE recs k with hcdef
    have hc1 : 0 < c := (countLE_spec recs k hs 0 r0 hg0).mp (by omega)
    rcases Nat.lt_or_ge rl.1 k with hllt | hlge
    · rw [if_pos hllt, if_neg (by simp)]
      have hcm : m - 1 < c := (countLE_spec recs k hs (m - 1) rl hgl).mp (by omega)
      have hcle : c ≤ m := by
        have := List.countP_le_length (l := recs) (fun r => decide (r.1 ≤ k))
        rw [countLE] at hcdef
        omega
      have hceq : c = m := by omega
      rw [hceq]
    · have hnel : rl.1 ≠ k := fun hcon => hex ⟨m - 1, rl, hgl, hcon⟩
      have hkltl : k < rl.1 := by omega
      rw [if_neg (by omega), if_neg (by omega)]
      have hcm : c ≤ m - 1 := by
        rcases Nat.lt_or_ge (m - 1) c with h | h
        · exfalso
          have := (countLE_spec recs k hs (m - 1) rl hgl).mpr h
          omega
        · exact h
      have hjlen : c - 1 < m := by omega
      have hgj : recs.get? (c - 1) = some (recs.get ⟨c - 1, hjlen⟩) :=
        List.get?_eq_get hjlen
      set rj := recs.get ⟨c - 1, hjlen⟩ with hrjdef
      have hj1len : c < m := by omega
      have hgj1 : recs.get? c = some (recs.get ⟨c, hj1len⟩) :=
        List.get?_eq_get hj1len
      set rj1 := recs.get ⟨c, hj1len⟩ with hrj1def
      have hjle : rj.1 ≤ k := (countLE_spec recs k hs (c - 1) rj hgj).mpr (by omega)
      have hne2 : rj.1 ≠ k := fun hcon => hex ⟨c - 1, rj, hgj, hcon⟩
      have hjlt : rj.1 < k := by omega
      have hj1gt : k < rj1.1 := by
        have hge2 : ¬ rj1.1 ≤ k := by
          intro hcon
          have := (countLE_spec recs k hs c rj1 hgj1).mp hcon
          omega
        omega
      have hsucc : c - 1 + 1 = c := by omega
      have hfuel : m - 1 - 0 ≤ (m - 1) * item_size - 0 := by
        rw [item_size_eq]
        omega
      have hb := bisect_between ((m - 1) * item_size - 0) recs (some .Backward) k
        0 (m - 1) (c - 1) rj rj1 hs hfuel (by omega) (by omega) (by omega) hgj
        (by rw [hsucc]; exact hgj1) hjlt hj1gt
      simpa using hb

/-! ## The time-series view (claims C1 and C2) -/

theorem WF_fields (st : TsStore) (hWF : st.WF) (hne : st.recs ≠ []) :
    st.items = st.recs.length ∧ sortedKeys st.recs = true ∧
    st.first_key = (st.recs.headD (0, 0)).1 ∧
    st.last_key = (st.recs.getLastD (0, 0)).1 ∧
    st.end_offset = (st.recs.length - 1) * item_size := by
  obtain ⟨h1, h2, h3⟩ := hWF
  rw [if_neg (by simpa using fun hcon => hne (List.length_eq_zero.mp hcon))] at h3
  exact ⟨h1, h2, h3.1, h3.2.1, h3.2.2⟩

theorem getLastD_eq_get? (l : List Rec) (d : Rec) :
    l.getLastD d = (l.get? (l.length - 1)).getD d := by
  rw [List.getLastD_eq_getLast?, List.getLast?_eq_getElem?, List.get?_eq_getElem?]

theorem headD_eq_get? (l : List Rec) (d : Rec) :
    l.headD d = (l.get? 0).getD d := by
  cases l <;> rfl

/-- Claim C1 (amended): on a well-formed store with at least two records,
`retrieve_nearest(k, d)` succeeds and returns the single record `(k, v)`
for every stored key `k` and every direction argument `d` (`Forward`,
`Backward`, or `None`).  (On a one-record store the claim fails: see the
counterexample.) -/
theorem claim_C1 (st : TsStore) (hWF : st.WF) (h2 : 2 ≤ st.items)
    (k : Nat) (v : Int) (hmem : (k, v) ∈ st.recs)
    (dir : Option RetrievalDirection) :
    retrieve_nearest st k dir = .ok (k, v) := by
  have hne : st.recs ≠ [] := by
    intro hcon
    rw [hcon] at hmem
    simp at hmem
  obtain ⟨hitems, hsort, _, _, heo⟩ := WF_fields st hWF hne
  have hm : 2 ≤ st.recs.length := by omega
  obtain ⟨⟨j, hjlen⟩, hget⟩ := List.mem_iff_get.mp hmem
  have hj : st.recs.get? j = some (k, v) := by
    rw [List.get?_eq_get hjlen, hget]
  rw [retrieve_nearest, heo,
    binary_search_exact st.recs dir k j (k, v) hsort hm hj rfl]
  exact read_record_at_mul st.recs j (k, v) hj

/-- Claim C1 counterexample: on a store holding exactly one record
`(10, 1)`, `end_offset = 0`, the search range is degenerate, and
`retrieve_nearest(10, d)` fails with `NotFound("No items in search range")`
for every direction `d` instead of returning `(10, 1)`. -/
theorem claim_C1_counterexample :
    (TsStore.mk [(10, 1)] 1 10 10 0).WF ∧
    retrieve_nearest (TsStore.mk [(10, 1)] 1 10 10 0) 10 none =
      .error (.notFound ("No items in search range")) ∧
    retrieve_nearest (TsStore.mk [(10, 1)] 1 10 10 0) 10
      (some .Forward) = .error (.notFound ("No items in search range")) ∧
    retrieve_nearest (TsStore.mk [(10, 1)] 1 10 10 0) 10
      (some .Backward) = .error (.notFound ("No items in search range")) := by
  refine ⟨by decide, by decide, by decide, by decide⟩

theorem claim_C1_witness :
    (TsStore.mk [(10, 1), (20, 2), (30, 3), (40, 4)] 4 10 40 57).WF ∧
    2 ≤ (TsStore.mk [(10, 1), (20, 2), (30, 3), (40, 4)] 4 10 40 57).items ∧
    ((20 : Nat), (2 : Int)) ∈
      (TsStore.mk [(10, 1), (20, 2), (30, 3), (40, 4)] 4 10 40 57).recs ∧
    retrieve_nearest (TsStore.mk [(10, 1), (20, 2), (30, 3), (40, 4)] 4 10 40 57)
      20 none = .ok (20, 2) :=
  ⟨by decide, by decide, by decide,
    claim_C1 (TsStore.mk [(10, 1), (20, 2), (30, 3), (40, 4)] 4 10 40 57)
      (by decide) (by decide) 20 2 (by decide) none⟩

/-- Claim C6 (amended): when the binary search is invoked on a proper
record range (`start_off ≠ end_off`) whose last key is less than
`target_key`: with direction `Backward` it returns `end_off`; with
`Forward` or `None` it fails `NotFound` — but with the message
"Search timestamp is after the search range", not
"Search key is after the search range" as the claim states (see the
counterexample). -/
theorem claim_C6 (recs : List Rec) (k so eo ks ke : Nat)
    (hne : so ≠ eo)
    (hrs : read_key_at recs so = .ok ks)
    (hre : read_key_at recs eo = .ok ke)
    (hord : ks ≤ ke) (hlt : ke < k) :
    binary_search_for_key recs (some .Backward) k so eo = .ok eo ∧
    binary_search_for_key recs (some .Forward) k so eo =
      .error (.notFound ("Search timestamp is after the search range")) ∧
    binary_search_for_key recs none k so eo =
      .error (.notFound ("Search timestamp is after the search range")) := by
  refine ⟨?_, ?_, ?_⟩
  · rw [binary_search_for_key, if_neg hne]
    simp only [hrs]
    rw [if_neg (by omega), if_neg (by omega)]
    simp only [hre]
    rw [if_pos hlt, if_neg (by simp)]
  · rw [binary_search_for_key, if_neg hne]
    simp only [hrs]
    rw [if_neg (by omega), if_neg (by omega)]
    simp only [hre]
    rw [if_pos hlt, if_pos (by simp)]
  · rw [binary_search_for_key, if_neg hne]
    simp only [hrs]
    rw [if_neg (by omega), if_neg (by omega)]
    simp only [hre]
    rw [if_pos hlt, if_pos (by simp)]

/-- Claim C6 counterexample: on the two-record file
`[(10, 1), (20, 2)]` with range `[0, 19]` and target key `25`, the
`Forward` and `None` searches fail with the message
"Search timestamp is after the search range", not the claimed
"Search key is after the search range". -/
theorem claim_C6_counterexample :
    binary_search_for_key [(10, 1), (20, 2)] none 25 0 19 =
      .error (.notFound ("Search timestamp is after the search range")) ∧
    binary_search_for_key [(10, 1), (20, 2)] none 25 0 19 ≠
      .error (.notFound ("Search key is after the search range")) ∧
    binary_search_for_key [(10, 1), (20, 2)] (some .Forward) 25 0 19 ≠
      .error (.notFound ("Search key is after the search range")) := by
  refine ⟨by decide, by decide, by decide⟩

theorem claim_C6_witness :
    ((0 : Nat) ≠ 19) ∧
    read_key_at [(10, 1), (20, 2)] 0 = .ok 10 ∧
    read_key_at [(10, 1), (20, 2)] 19 = .ok 20 ∧
    (10 : Nat) ≤ 20 ∧ (20 : Nat) < 25 ∧
    (binary_search_for_key [(10, 1), (20, 2)] (some .Backward) 25 0 19 = .ok 19 ∧
      binary_search_for_key [(10, 1), (20, 2)] (some .Forward) 25 0 19 =
        .error (.notFound ("Search timestamp is after the search range")) ∧
      binary_search_for_key [(10, 1), (20, 2)] none 25 0 19 =
        .error (.notFound ("Search timestamp is after the search range"))) :=
  ⟨by decide, by decide, by decide, by decide, by decide,
    claim_C6 [(10, 1), (20, 2)] 25 0 19 10 20 (by decide) (by decide) (by decide)
      (by decide) (by decide)⟩

/-- If no stored key equals `k`, `countLE` and `countLT` agree. -/
theorem countLE_eq_countLT_of_absent (recs : List Rec) (k : Nat)
    (habs : ∀ r ∈ recs, r.1 ≠ k) : countLE recs k = countLT recs k := by
  rw [countLE, countLT]
  apply List.countP_congr
  intro r hr
  have := habs r hr
  constructor
  · intro h
    simp at h ⊢
    omega
  · intro h
    simp at h ⊢
    omega

/-- `find_to` on a bound strictly beyond the first record returns the
offset of the last record with key strictly below the bound. -/
theorem find_to_gt (st : TsStore) (k : Nat)
    (_hitems : st.items = st.recs.length) (hsort : sortedKeys st.recs = true)
    (heo : st.end_offset = (st.recs.length - 1) * item_size)
    (hm : 2 ≤ st.recs.length) (r0 : Rec) (hg0 : st.recs.get? 0 = some r0)
    (hgt : r0.1 < k) :
    find_to st k = .ok ((countLT st.recs k - 1) * item_size) := by
  set m := st.recs.length with hmdef
  rw [find_to, heo,
    binary_search_backward st.recs k hsort hm r0 hg0 (by omega)]
  set c := countLE st.recs k with hcdef
  have hc1 : 0 < c := (countLE_spec st.recs k hsort 0 r0 hg0).mp (by omega)
  have hcle : c ≤ m := by
    have := List.countP_le_length (l := st.recs) (fun r => decide (r.1 ≤ k))
    rw [countLE] at hcdef
    omega
  have hjlen : c - 1 < m := by omega
  have hgc : st.recs.get? (c - 1) = some (st.recs.get ⟨c - 1, hjlen⟩) :=
    List.get?_eq_get hjlen
  set rc := st.recs.get ⟨c - 1, hjlen⟩ with hrcdef
  simp only [read_key_at_mul st.recs (c - 1) rc hgc]
  by_cases hkeq : rc.1 = k
  · have hceq : countLE st.recs k = (c - 1) + 1 :=
      countLE_at_exact st.recs k hsort (c - 1) rc hgc hkeq
    have hlt : countLT st.recs k = c - 1 :=
      countLT_at_exact st.recs k hsort (c - 1) rc hgc hkeq
    have hc1pos : 0 < c - 1 := by
      rcases Nat.eq_zero_or_pos (c - 1) with h | h
      · exfalso
        rw [h, hg0] at hgc
        injection hgc with hgc
        rw [hgc] at hgt
        omega
      · exact h
    rw [if_neg (by simpa using hkeq), if_pos (by
      have := item_size_pos
      exact Nat.mul_pos hc1pos this)]
    rw [hlt, item_size_eq]
    congr 1
    omega
  · rw [if_pos (by simpa using hkeq)]
    have habs : ∀ r ∈ st.recs, r.1 ≠ k := by
      intro r hr hcon
      obtain ⟨n, hn⟩ := List.get?_of_mem hr
      have := countLE_at_exact st.recs k hsort n r hn hcon
      have hnc : n = c - 1 := by omega
      rw [hnc, hgc] at hn
      injection hn with hn
      rw [hn] at hkeq
      exact hkeq hcon
    rw [countLE_eq_countLT_of_absent st.recs k habs] at hcdef
    rw [hcdef]

/-- `find_to` on a bound equal to the first record's key fails
`InvalidInput` (translated to an empty result by its callers). -/
theorem find_to_first (st : TsStore) (k : Nat)
    (hsort : sortedKeys st.recs = true)
    (heo : st.end_offset = (st.recs.length - 1) * item_size)
    (hm : 2 ≤ st.recs.length) (r0 : Rec) (hg0 : st.recs.get? 0 = some r0)
    (heq : r0.1 = k) :
    find_to st k =
      .error (.invalidInput ("find_to search key was equal to the first record")) := by
  have hj : st.recs.get? 0 = some r0 := hg0
  have hsearch := binary_search_exact st.recs (some .Backward) k 0 r0 hsort hm hj heq
  rw [find_to, heo]
  simp only [Nat.zero_mul] at hsearch
  rw [hsearch]
  simp only [read_key_at_zero st.recs r0 hg0]
  rw [if_neg (by simpa using heq), if_neg (by omega)]

/-- `find_to` on a bound strictly before the first record fails `NotFound`
(translated to an empty result by its callers). -/
theorem find_to_before (st : TsStore) (k : Nat)
    (heo : st.end_offset = (st.recs.length - 1) * item_size)
    (hm : 2 ≤ st.recs.length) (r0 : Rec) (hg0 : st.recs.get? 0 = some r0)
    (hlt : k < r0.1) :
    find_to st k = .error (.notFound ("Search key is before the search range")) := by
  rw [find_to, heo, binary_search_for_key, if_neg (by
    rw [item_size_eq]
    omega)]
  simp only [read_key_at_zero st.recs r0 hg0]
  rw [if_pos hlt, if_pos (by simp)]

/-- Sequential `read_record`s from a record boundary return the
corresponding slice of the file. -/
theorem read_records_from_spec (recs : List Rec) :
    ∀ (cnt i : Nat), i + cnt ≤ recs.length →
    read_records_from recs (i * item_size) cnt = .ok ((recs.drop i).take cnt) := by
  intro cnt
  induction cnt with
  | zero =>
    intro i h
    simp [read_records_from]
  | succ n ih =>
    intro i h
    have hilen : i < recs.length := by omega
    have hgi : recs.get? i = some (recs.get ⟨i, hilen⟩) := List.get?_eq_get hilen
    rw [read_records_from]
    simp only [read_record_at_mul recs i (recs.get ⟨i, hilen⟩) hgi]
    have hoff : i * item_size + item_size = (i + 1) * item_size := by ring
    rw [hoff, ih (i + 1) (by omega)]
    rw [List.drop_eq_getElem_cons hilen, List.take_succ_cons]
    rfl

/-- In a sorted file, filtering below a bound is taking a prefix. -/
theorem filter_lt_eq_take (recs : List Rec) (hs : sortedKeys recs = true)
    (rto : Nat) :
    recs.filter (fun r => decide (r.1 < rto)) = recs.take (countLT recs rto) := by
  induction recs with
  | nil => simp
  | cons r rest ih =>
    by_cases hr : r.1 < rto
    · have hc : countLT (r :: rest) rto = countLT rest rto + 1 := by
        simp [countLT, List.countP_cons, hr]
      rw [hc]
      simp only [List.filter_cons, List.take_succ_cons, decide_eq_true hr, if_true]
      rw [ih (sortedKeys_tail r rest hs)]
    · have hc : countLT (r :: rest) rto = 0 := by
        rw [countLT, List.countP_cons]
        have hrest0 : List.countP (fun x => decide (x.1 < rto)) rest = 0 := by
          rw [List.countP_eq_zero]
          intro a ha
          have := sortedKeys_head_lt r rest hs a ha
          simp
          omega
        simp [hrest0, hr]
      rw [hc]
      simp only [List.take_zero]
      rw [List.filter_eq_nil_iff]
      intro a ha
      simp at ha ⊢
      rcases ha with ha | ha
      · subst ha
        omega
      · have := sortedKeys_head_lt r rest hs a ha
        omega

/-- In a sorted file, the half-open key window `[rfrom, rto)` is the index
slice between the two `countLT` bounds. -/
theorem filter_range_eq_slice (recs : List Rec) (hs : sortedKeys recs = true)
    (rfrom rto : Nat) (hft : rfrom ≤ rto) :
    recs.filter (fun r => decide (rfrom ≤ r.1) && decide (r.1 < rto)) =
      (recs.drop (countLT recs rfrom)).take
        (countLT recs rto - countLT recs rfrom) := by
  induction recs with
  | nil => simp
  | cons r rest ih =>
    by_cases hr : rfrom ≤ r.1
    · have hcf : countLT (r :: rest) rfrom = 0 := by
        rw [countLT, List.countP_cons]
        have hrest0 : List.countP (fun x => decide (x.1 < rfrom)) rest = 0 := by
          rw [List.countP_eq_zero]
          intro a ha
          have := sortedKeys_head_lt r rest hs a ha
          simp
          omega
        simp [hrest0]
        omega
      rw [hcf, List.drop_zero, Nat.sub_zero]
      have hcongr : (r :: rest).filter
          (fun x => decide (rfrom ≤ x.1) && decide (x.1 < rto)) =
          (r :: rest).filter (fun x => decide (x.1 < rto)) := by
        apply List.filter_congr
        intro a ha
        have hge : rfrom ≤ a.1 := by
          rcases List.mem_cons.mp ha with hx | hx
          · rw [hx]
            exact hr
          · have := sortedKeys_head_lt r rest hs a hx
            omega
        simp [hge]
      rw [hcongr]
      exact filter_lt_eq_take (r :: rest) hs rto
    · have hlt : r.1 < rfrom := by omega
      have hlt2 : r.1 < rto := by omega
      have hcf : countLT (r :: rest) rfrom = countLT rest rfrom + 1 := by
        simp [countLT, List.countP_cons, hlt]
      have hct : countLT (r :: rest) rto = countLT rest rto + 1 := by
        simp [countLT, List.countP_cons, hlt2]
      rw [hcf, hct, List.drop_succ_cons]
      have hdrop : (countLT rest rto + 1) - (countLT rest rfrom + 1) =
          countLT rest rto - countLT rest rfrom := by omega
      rw [hdrop]
      simp only [List.filter_cons, Bool.and_eq_true]
      rw [if_neg (by simp [hr])]
      exact ih (sortedKeys_tail r rest hs)

theorem sorted_le_last (recs : List Rec) (hs : sortedKeys recs = true)
    (hlen : 0 < recs.length) (rl : Rec)
    (hgl : recs.get? (recs.length - 1) = some rl) :
    ∀ a ∈ recs, a.1 ≤ rl.1 := by
  intro a ha
  obtain ⟨n, hn⟩ := List.get?_of_mem ha
  have hnlen : n < recs.length := (List.get?_eq_some.mp hn).choose
  exact sorted_get_le recs hs (by omega) hn hgl

/-- Claim C2 (amended): on a well-formed store with at least two records
and `rfrom ≤ rto`, `retrieve_range(rfrom, rto)` returns exactly the stored
records with `rfrom ≤ key < rto`, in ascending (file) order — in
particular the empty vector when `rfrom = rto`.  (On a one-record store the
call fails `NotFound`, and with `rfrom > rto` the item-index subtraction
can overflow and panic: see the counterexample.) -/
theorem claim_C2 (st : TsStore) (hWF : st.WF) (h2 : 2 ≤ st.items)
    (rfrom rto : Nat) (hft : rfrom ≤ rto) :
    retrieve_range st rfrom rto =
      .ok (st.recs.filter (fun r => decide (rfrom ≤ r.1) && decide (r.1 < rto))) := by
  have hitems0 := hWF.1
  have hne : st.recs ≠ [] := by
    intro hcon
    rw [hcon] at hitems0
    simp at hitems0
    omega
  obtain ⟨hitems, hsort, hfk, hlk, heo⟩ := WF_fields st hWF hne
  set m := st.recs.length with hmdef
  have hm : 2 ≤ m := by omega
  have h0len : 0 < m := by omega
  have hg0 : st.recs.get? 0 = some (st.recs.get ⟨0, h0len⟩) := List.get?_eq_get h0len
  set r0 := st.recs.get ⟨0, h0len⟩ with hr0def
  have hlblen : m - 1 < m := by omega
  have hgl : st.recs.get? (m - 1) = some (st.recs.get ⟨m - 1, hlblen⟩) :=
    List.get?_eq_get hlblen
  set rl := st.recs.get ⟨m - 1, hlblen⟩ with hrldef
  have hlast : st.last_key = rl.1 := by
    rw [hlk, getLastD_eq_get?, ← hmdef, hgl]
    rfl
  rw [retrieve_range]
  by_cases hfle : rfrom ≤ st.last_key
  · rw [if_pos hfle]
    rw [heo, hmdef,
      binary_search_forward st.recs rfrom hsort (by omega) rl (by rw [← hmdef]; exact hgl)
        (by omega)]
    set cF := countLT st.recs rfrom with hcFdef
    have hge_first : ∀ a ∈ st.recs, r0.1 ≤ a.1 := by
      intro a ha
      obtain ⟨n, hn⟩ := List.get?_of_mem ha
      exact sorted_get_le st.recs hsort (by omega) hg0 hn
    rcases lt_trichotomy rto r0.1 with hrt | hrt | hrt
    · rw [find_to_before st rto heo hm r0 hg0 hrt]
      simp only [IoErr.isInvalidInputOrNotFound, if_true]
      have hfilter : st.recs.filter
          (fun r => decide (rfrom ≤ r.1) && decide (r.1 < rto)) = [] := by
        rw [List.filter_eq_nil_iff]
        intro a ha
        have := hge_first a ha
        simp
        omega
      rw [hfilter]
    · rw [find_to_first st rto hsort heo hm r0 hg0 hrt.symm]
      simp only [IoErr.isInvalidInputOrNotFound, if_true]
      have hfilter : st.recs.filter
          (fun r => decide (rfrom ≤ r.1) && decide (r.1 < rto)) = [] := by
        rw [List.filter_eq_nil_iff]
        intro a ha
        have := hge_first a ha
        simp
        omega
      rw [hfilter]
    · rw [find_to_gt st rto hitems hsort heo hm r0 hg0 hrt]
      set cT := countLT st.recs rto with hcTdef
      have hcT1 : 0 < cT := (countLT_spec st.recs rto hsort 0 r0 hg0).mp hrt
      have hcTm : cT ≤ m := by
        have := List.countP_le_length (l := st.recs) (fun r => decide (r.1 < rto))
        rw [countLT] at hcTdef
        omega
      have hmono : cF ≤ cT := by
        rw [hcFdef, hcTdef, countLT, countLT]
        apply List.countP_mono_left
        intro r _ hr
        simp at hr ⊢
        omega
      simp only [Nat.mul_div_cancel _ item_size_pos]
      have hct1 : cT - 1 + 1 = cT := by omega
      rw [hct1, if_neg (by omega)]
      rw [read_records_from_spec st.recs (cT - cF) cF (by omega)]
      rw [filter_range_eq_slice st.recs hsort rfrom rto hft]
  · rw [if_neg hfle]
    have hfilter : st.recs.filter
        (fun r => decide (rfrom ≤ r.1) && decide (r.1 < rto)) = [] := by
      rw [List.filter_eq_nil_iff]
      intro a ha
      have := sorted_le_last st.recs hsort (by omega) rl hgl a ha
      simp
      omega
    rw [hfilter]

/-- Claim C2 counterexample: (a) on a store holding exactly one record
`(10, 1)`, `retrieve_range(10, 20)` fails `NotFound` instead of returning
`[(10, 1)]`; (b) on a four-record store, `retrieve_range(30, 20)` (with
`from ≥ to`) panics on an item-index subtraction overflow instead of
returning the empty vector. -/
theorem claim_C2_counterexample :
    (TsStore.mk [(10, 1)] 1 10 10 0).WF ∧
    retrieve_range (TsStore.mk [(10, 1)] 1 10 10 0) 10 20 =
      .error (.notFound ("No items in search range")) ∧
    (TsStore.mk [(10, 1), (20, 2), (30, 3), (40, 4)] 4 10 40 57).WF ∧
    retrieve_range (TsStore.mk [(10, 1), (20, 2), (30, 3), (40, 4)] 4 10 40 57)
      30 20 = .error (.panicked ("attempt to subtract with overflow")) := by
  refine ⟨by decide, by decide, by decide, by decide⟩

theorem claim_C2_witness :
    (TsStore.mk [(10, 1), (20, 2), (30, 3), (40, 4)] 4 10 40 57).WF ∧
    2 ≤ (TsStore.mk [(10, 1), (20, 2), (30, 3), (40, 4)] 4 10 40 57).items ∧
    (9 : Nat) ≤ 21 ∧
    retrieve_range (TsStore.mk [(10, 1), (20, 2), (30, 3), (40, 4)] 4 10 40 57)
      9 21 = .ok ((TsStore.mk [(10, 1), (20, 2), (30, 3), (40, 4)] 4 10 40 57).recs.filter
        (fun r => decide (9 ≤ r.1) && decide (r.1 < 21))) :=
  ⟨by decide, by decide, by decide,
    claim_C2 (TsStore.mk [(10, 1), (20, 2), (30, 3), (40, 4)] 4 10 40 57)
      (by decide) (by decide) 9 21 (by decide)⟩

/-- Claim C4 (amended): the codec round-trip `from_bytes(into_bytes(t)) = t`
holds for the 13-digit `Timestamp` codec (for every `u64` value), for the
`Usd` codec on nonnegative values, and for the right-aligned `i32` codec
exactly when the 4-character rendering has no leading whitespace
(`1000 ≤ v` or `v ≤ -100`); for shorter renderings `i32::from_str` fails on
the left padding because it does not trim whitespace (see the
counterexample). -/
theorem claim_C4 :
    (∀ t : Nat, t < 2 ^ 64 → ts_from_bytes (ts_into_bytes t) = .ok t) ∧
    (∀ v : Int, (1000 ≤ v ∨ v ≤ -100) → -(2 ^ 31) ≤ v → v < 2 ^ 31 →
      i32_from_bytes (i32_into_bytes v) = .ok v) ∧
    (∀ u : Usd, 0 ≤ u.value → u.value < 2 ^ 63 →
      usd_from_bytes (usd_into_bytes u) = .ok u) :=
  ⟨ts_from_into, i32_from_into, usd_from_into⟩

/-- Claim C4 counterexample: the `i32` value `1` encodes as `"   1"`, and
`from_bytes` rejects it because `i32::from_str` does not accept leading
whitespace; the claimed round-trip fails. -/
theorem claim_C4_counterexample :
    i32_from_bytes (i32_into_bytes 1) = .error (.invalidData ("Invalid data")) ∧
    i32_from_bytes (i32_into_bytes 1) ≠ .ok 1 := by
  refine ⟨by decide, by decide⟩

theorem claim_C4_witness :
    ((3 : Nat) < 2 ^ 64 ∧ ts_from_bytes (ts_into_bytes 3) = .ok 3) ∧
    ((1000 ≤ (1234 : Int) ∨ (1234 : Int) ≤ -100) ∧
      i32_from_bytes (i32_into_bytes 1234) = .ok 1234) ∧
    ((0 : Int) ≤ (Usd.mk 12345).value ∧
      usd_from_bytes (usd_into_bytes (Usd.mk 12345)) = .ok (Usd.mk 12345)) :=
  ⟨⟨by decide, claim_C4.1 3 (by decide)⟩,
    ⟨Or.inl (by decide), claim_C4.2.1 1234 (Or.inl (by decide)) (by decide) (by decide)⟩,
    ⟨by decide, claim_C4.2.2 (Usd.mk 12345) (by decide) (by decide)⟩⟩

/-! ## Pooling: termination and the empty store (claims C9 and C10) -/

theorem roll_forward_ok (opts : PoolingOptions) (lr : Rec) (rts : Nat)
    (hiv : 0 < opts.interval) :
    ∀ fuel values bstart bend, rts < bend + fuel →
    ∃ out, roll_forward opts lr rts fuel values bstart bend = .ok out := by
  intro fuel
  induction fuel with
  | zero =>
    intro values bstart bend h
    rw [roll_forward, if_neg (by omega)]
    exact ⟨_, rfl⟩
  | succ f ih =>
    intro values bstart bend h
    rw [roll_forward]
    by_cases hc : bend ≤ rts
    · rw [if_pos hc]
      exact ih _ _ _ (by omega)
    · rw [if_neg hc]
      exact ⟨_, rfl⟩

theorem gather_loop_step (opts : PoolingOptions) (m : Nat) (record : Rec)
    (rest : List Rec) (bucket : Bucket) (lr : Rec) (values : List Rec)
    (hc : bucket.bend ≤ record.1) (v2 : List Rec) (b2 e2 : Nat)
    (hout : roll_forward opts
      (if bucket.records ≠ [] then bucket.records.getLastD lr else lr)
      record.1 (record.1 + 1) (conclude_bucket bucket values lr opts)
      bucket.bend (bucket.bend + opts.interval) = .ok (v2, b2, e2)) :
    gather_loop opts (m + 1) (record :: rest) bucket lr values =
      gather_loop opts m rest ⟨[record], b2, e2⟩
        (if bucket.records ≠ [] then bucket.records.getLastD lr else lr) v2 := by
  simp only [gather_loop]
  rw [if_pos hc, hout]

theorem gather_loop_skip (opts : PoolingOptions) (m : Nat) (record : Rec)
    (rest : List Rec) (bucket : Bucket) (lr : Rec) (values : List Rec)
    (hc : ¬ bucket.bend ≤ record.1) :
    gather_loop opts (m + 1) (record :: rest) bucket lr values =
      gather_loop opts m rest ⟨bucket.records ++ [record], bucket.bstart, bucket.bend⟩
        lr values := by
  simp only [gather_loop]
  rw [if_neg hc]

theorem gather_loop_not_diverged (opts : PoolingOptions)
    (hiv : 0 < opts.interval) :
    ∀ n (reader : List Rec) (bucket : Bucket) (lr : Rec) (values : List Rec),
    gather_loop opts n reader bucket lr values ≠ .error .modelDiverged := by
  intro n
  induction n with
  | zero =>
    intro reader bucket lr values
    simp [gather_loop]
  | succ m ih =>
    intro reader bucket lr values
    match reader with
    | [] => simp [gather_loop]
    | record :: rest =>
      by_cases hc : bucket.bend ≤ record.1
      · obtain ⟨out, hout⟩ := roll_forward_ok opts
          (if bucket.records ≠ [] then bucket.records.getLastD lr else lr)
          record.1 hiv (record.1 + 1) (conclude_bucket bucket values lr opts)
          bucket.bend (bucket.bend + opts.interval) (by omega)
        obtain ⟨v2, b2, e2⟩ := out
        rw [gather_loop_step opts m record rest bucket lr values hc v2 b2 e2 hout]
        exact ih _ _ _ _
      · rw [gather_loop_skip opts m record rest bucket lr values hc]
        exact ih _ _ _ _

/-- Claim C9: with `interval > 0` the bucket roll-forward loop of
`gather_buckets` strictly increases `bucket.end` each iteration, so
`gather_buckets` — and hence `pool_all` — terminates on every finite record
stream: the embedding, whose `.error .modelDiverged` marks exactly the
states where the source would loop forever, never reports divergence. -/
theorem claim_C9 (opts : PoolingOptions) (h : 0 < opts.interval) :
    (∀ (reader : List Rec) (start_time so eo : Nat),
      gather_buckets reader opts start_time so eo ≠ .error .modelDiverged) ∧
    (∀ st : TsStore, pool_all st opts ≠ .error .modelDiverged) := by
  have hg : ∀ (reader : List Rec) (start_time so eo : Nat),
      gather_buckets reader opts start_time so eo ≠ .error .modelDiverged := by
    intro reader start_time so eo
    match reader with
    | [] => simp [gather_buckets]
    | f :: rest =>
      simp only [gather_buckets]
      exact gather_loop_not_diverged opts h _ _ _ _ _
  exact ⟨hg, fun st => hg _ _ _ _⟩

theorem claim_C9_witness :
    0 < (PoolingOptions.mk 1 .End none).interval ∧
    gather_buckets [((5 : Nat), (7 : Int))] ⟨1, .End, none⟩ 5 0 0 ≠
      .error .modelDiverged ∧
    pool_all (TsStore.mk [(5, 7)] 1 5 5 0) ⟨1, .End, none⟩ ≠
      .error .modelDiverged :=
  ⟨by decide, (claim_C9 ⟨1, .End, none⟩ (by decide)).1 _ _ _ _,
    (claim_C9 ⟨1, .End, none⟩ (by decide)).2 _⟩

/-- Claim C10: on a store with zero records `gather_buckets` computes
`record_count = (end_offset - start_offset) / item_size + 1 = 1`, so
`pool_all` attempts to read a record from the empty file and fails with
`UnexpectedEof` instead of returning an empty result. -/
theorem claim_C10 (st : TsStore) (h : st.WF) (h0 : st.items = 0)
    (opts : PoolingOptions) :
    (st.end_offset - 0) / item_size + 1 = 1 ∧
    pool_all st opts = .error .unexpectedEof := by
  obtain ⟨hlen, -, hif⟩ := h
  rw [h0] at hlen
  have hnil : st.recs = [] := List.length_eq_zero.mp hlen.symm
  rw [hnil] at hif
  rw [if_pos (by simp : ([] : List Rec).length = 0)] at hif
  obtain ⟨-, -, hend⟩ := hif
  constructor
  · rw [hend]
    decide
  · simp [pool_all, gather_buckets, hnil]

theorem claim_C10_witness :
    (TsStore.mk [] 0 0 0 0).WF ∧ (TsStore.mk [] 0 0 0 0).items = 0 ∧
    (((TsStore.mk [] 0 0 0 0).end_offset - 0) / item_size + 1 = 1 ∧
      pool_all (TsStore.mk [] 0 0 0 0) ⟨2, .Mean, some .Default⟩ =
        .error .unexpectedEof) :=
  ⟨by decide, rfl, claim_C10 _ (by decide) rfl _⟩

/-! ## Pooling identity on contiguous data (claim C8) -/

theorem gather_end_contiguous :
    ∀ (tl : List Rec) (t : Nat) (v : Int) (lr : Rec) (values : List Rec),
    contiguousKeys ((t, v) :: tl) = true →
    gather_loop ⟨1, .End, none⟩ tl.length tl ⟨[(t, v)], t, t + 1⟩ lr values =
      .ok (values ++ (t, v) :: tl) := by
  intro tl
  induction tl with
  | nil =>
    intro t v lr values _
    simp [gather_loop, conclude_bucket]
  | cons b rest ih =>
    intro t v lr values hcont
    obtain ⟨t2, v2⟩ := b
    have hc : t2 = t + 1 ∧ contiguousKeys ((t2, v2) :: rest) = true := by
      simpa [contiguousKeys] using hcont
    obtain ⟨ht2, hcont2⟩ := hc
    subst ht2
    have hlr : (if ([((t : Nat), v)] : List Rec) ≠ [] then
        ([((t : Nat), v)] : List Rec).getLastD lr else lr) = (t, v) := by
      simp
    have hout : roll_forward ⟨1, .End, none⟩ (t, v) (t + 1) (t + 1 + 1)
        (conclude_bucket ⟨[(t, v)], t, t + 1⟩ values lr ⟨1, .End, none⟩)
        (t + 1) (t + 1 + 1) = .ok
          (conclude_bucket ⟨[(t, v)], t, t + 1⟩ values lr ⟨1, .End, none⟩,
            t + 1, t + 1 + 1) := by
      rw [roll_forward, if_neg (by omega)]
    have hout2 : roll_forward ⟨1, .End, none⟩
        (if ([((t : Nat), v)] : List Rec) ≠ [] then
          ([((t : Nat), v)] : List Rec).getLastD lr else lr)
        (t + 1) (t + 1 + 1)
        (conclude_bucket ⟨[(t, v)], t, t + 1⟩ values lr ⟨1, .End, none⟩)
        (t + 1) (t + 1 + 1) = .ok
          (conclude_bucket ⟨[(t, v)], t, t + 1⟩ values lr ⟨1, .End, none⟩,
            t + 1, t + 1 + 1) := by
      rw [hlr]
      exact hout
    simp only [List.length_cons]
    rw [gather_loop_step ⟨1, .End, none⟩ rest.length (t + 1, v2) rest
      ⟨[(t, v)], t, t + 1⟩ lr values (Nat.le_refl _) _ _ _ hout2]
    rw [hlr]
    have hconc : conclude_bucket ⟨[(t, v)], t, t + 1⟩ values lr ⟨1, .End, none⟩ =
        values ++ [(t, v)] := by
      simp [conclude_bucket]
    rw [hconc]
    rw [ih (t + 1) v2 (t, v) (values ++ [(t, v)]) hcont2]
    simp

/-- Claim C8: over a non-empty store whose timestamps are contiguous (each
key the previous plus one), `pool_all` with `interval = 1`,
`pooling = End`, `gap_fill = None` returns exactly the stored records, with
the same labels and in the same order. -/
theorem claim_C8 (st : TsStore) (h : st.WF) (hne : st.recs ≠ [])
    (hcont : contiguousKeys st.recs = true) :
    pool_all st ⟨1, .End, none⟩ = .ok st.recs := by
  obtain ⟨hlen, hsort, hif⟩ := h
  obtain ⟨first, rest, hrecs⟩ := List.exists_cons_of_ne_nil hne
  have hlen0 : ¬ st.recs.length = 0 := by
    rw [hrecs]
    simp
  rw [if_neg hlen0] at hif
  obtain ⟨hfk, hlk, heo⟩ := hif
  obtain ⟨t, v⟩ := first
  have hcont2 : contiguousKeys ((t, v) :: rest) = true := by
    rw [← hrecs]
    exact hcont
  have hkey : gather_buckets ((t, v) :: rest) ⟨1, .End, none⟩ t 0
      (rest.length * item_size) = .ok ((t, v) :: rest) := by
    simp only [gather_buckets]
    have hrc : (rest.length * item_size - 0) / item_size + 1 - 1 = rest.length := by
      rw [item_size_eq]
      omega
    rw [hrc, if_pos trivial]
    exact gather_end_contiguous rest t v (t, v) [] hcont2
  have hfk2 : st.first_key = t := by
    rw [hfk, hrecs]
    rfl
  have heo2 : st.end_offset = rest.length * item_size := by
    rw [heo, hrecs]
    simp
  simp only [pool_all]
  rw [hrecs, hfk2, heo2]
  exact hkey

theorem claim_C8_witness :
    (TsStore.mk [(5, 1), (6, 2), (7, 3)] 3 5 7 38).WF ∧
    (TsStore.mk [(5, 1), (6, 2), (7, 3)] 3 5 7 38).recs ≠ [] ∧
    contiguousKeys (TsStore.mk [(5, 1), (6, 2), (7, 3)] 3 5 7 38).recs = true ∧
    pool_all (TsStore.mk [(5, 1), (6, 2), (7, 3)] 3 5 7 38) ⟨1, .End, none⟩ =
      .ok [(5, 1), (6, 2), (7, 3)] :=
  ⟨by decide, by decide, by decide,
    claim_C8 _ (by decide) (by decide) (by decide)⟩

/-! ## Start-pooling carry-forward (claim C7) -/

theorem head?_of_ne_nil (l : List Rec) (d : Rec) (h : l ≠ []) :
    l.head? = some (l.headD d) := by
  cases l with
  | nil => exact absurd rfl h
  | cons a t => rfl

theorem getLast?_of_ne_nil (l : List Rec) (d : Rec) (h : l ≠ []) :
    l.getLast? = some (l.getLastD d) := by
  rw [List.getLastD_eq_getLast?, List.getLast?_eq_getLast l h]
  rfl

theorem head?_append_of_ne_nil (l l2 : List Rec) (x : Rec)
    (h : l.head? = some x) : (l ++ l2).head? = some x := by
  cases l with
  | nil => exact Option.noConfusion h
  | cons a t => simpa using h

theorem pairwise_sortedKeys : ∀ l : List Rec,
    List.Pairwise (fun a b : Rec => a.1 < b.1) l → sortedKeys l = true
| [] => fun _ => rfl
| [_] => fun _ => rfl
| a :: b :: rest => fun h => by
  have hab : a.1 < b.1 := (List.pairwise_cons.mp h).1 b (List.mem_cons_self b rest)
  have ht : sortedKeys (b :: rest) = true :=
    pairwise_sortedKeys (b :: rest) (List.pairwise_cons.mp h).2
  show (decide (a.1 < b.1) && sortedKeys (b :: rest)) = true
  rw [ht, decide_eq_true hab]
  rfl

theorem sorted_append_left (l1 l2 : List Rec)
    (h : sortedKeys (l1 ++ l2) = true) : sortedKeys l1 = true :=
  pairwise_sortedKeys l1 (List.pairwise_append.mp (sortedKeys_pairwise _ h)).1

theorem sorted_append_right (l1 l2 : List Rec)
    (h : sortedKeys (l1 ++ l2) = true) : sortedKeys l2 = true :=
  pairwise_sortedKeys l2 (List.pairwise_append.mp (sortedKeys_pairwise _ h)).2.1

theorem filter_ge_nil (l : List Rec) (t : Nat) (h : ∀ r ∈ l, r.1 < t) :
    l.filter (fun r => decide (t ≤ r.1)) = [] := by
  rw [List.filter_eq_nil_iff]
  intro a ha
  have := h a ha
  simp only [decide_eq_true_eq]
  omega

theorem filter_ge_getLast? : ∀ (l : List Rec), sortedKeys l = true →
    ∀ t : Nat, l.filter (fun r => decide (t ≤ r.1)) ≠ [] →
    (l.filter (fun r => decide (t ≤ r.1))).getLast? = l.getLast? := by
  intro l
  induction l with
  | nil =>
    intro _ t h
    simp at h
  | cons a rest ih =>
    intro hs t hne
    by_cases hrest : rest = []
    · subst hrest
      by_cases hp : t ≤ a.1
      · simp [List.filter_cons, hp]
      · exfalso
        apply hne
        simp [List.filter_cons, hp]
    · have hs2 := sortedKeys_tail a rest hs
      by_cases hp : t ≤ a.1
      · have hall : rest.filter (fun r => decide (t ≤ r.1)) = rest := by
          apply List.filter_eq_self.mpr
          intro x hx
          have := sortedKeys_head_lt a rest hs x hx
          simp only [decide_eq_true_eq]
          omega
        rw [List.filter_cons, if_pos (by simpa using hp), hall]
      · rw [List.filter_cons, if_neg (by simpa using hp)] at hne ⊢
        obtain ⟨b, t2, rfl⟩ := List.exists_cons_of_ne_nil hrest
        rw [List.getLast?_cons_cons]
        exact ih hs2 t hne

theorem lastBeforeBucket_all_lt (l : List Rec) (u : Nat)
    (h : ∀ r ∈ l, r.1 < u) :
    lastBeforeBucket l u = l.getLast? := by
  have hself : l.filter (fun r => decide (r.1 < u)) = l := by
    apply List.filter_eq_self.mpr
    intro a ha
    simpa using h a ha
  unfold lastBeforeBucket
  rw [hself]

theorem lastBeforeBucket_append_ge (l1 l2 : List Rec) (u : Nat)
    (h : ∀ r ∈ l2, ¬ r.1 < u) :
    lastBeforeBucket (l1 ++ l2) u = lastBeforeBucket l1 u := by
  have h2 : l2.filter (fun r => decide (r.1 < u)) = [] := by
    rw [List.filter_eq_nil_iff]
    intro a ha
    simpa using h a ha
  unfold lastBeforeBucket
  rw [List.filter_append, h2, List.append_nil]

theorem carry_eq_getLast (scanned : List Rec) (hs : sortedKeys scanned = true)
    (hne : scanned ≠ []) (bstart : Nat) (firstRec : Rec)
    (records : List Rec)
    (hrecords : records = scanned.filter (fun r => decide (bstart ≤ r.1))) :
    (if records ≠ [] then
        records.getLastD ((lastBeforeBucket scanned bstart).getD firstRec)
      else (lastBeforeBucket scanned bstart).getD firstRec) =
      scanned.getLastD (0, 0) := by
  by_cases hrne : records = []
  · rw [if_neg (by simp [hrne])]
    have hall : ∀ r ∈ scanned, r.1 < bstart := by
      intro r hr
      by_contra hge
      have hmem : r ∈ scanned.filter (fun r => decide (bstart ≤ r.1)) :=
        List.mem_filter.mpr ⟨hr, by simp only [decide_eq_true_eq]; omega⟩
      rw [← hrecords, hrne] at hmem
      exact absurd hmem (List.not_mem_nil r)
    rw [lastBeforeBucket_all_lt scanned bstart hall,
      getLast?_of_ne_nil scanned (0, 0) hne]
    rfl
  · rw [if_pos hrne, hrecords]
    rw [hrecords] at hrne
    rw [List.getLastD_eq_getLast?, filter_ge_getLast? scanned hs bstart hrne,
      getLast?_of_ne_nil scanned (0, 0) hne]
    rfl

theorem roll_forward_spec (opts : PoolingOptions) (lr : Rec) (rts : Nat) :
    ∀ fuel (values : List Rec) (bstart bend : Nat) (vout : List Rec)
      (bout eout : Nat),
    bend = bstart + opts.interval →
    roll_forward opts lr rts fuel values bstart bend = .ok (vout, bout, eout) →
    eout = bout + opts.interval ∧ rts < eout ∧ bstart ≤ bout ∧
    (bstart ≤ rts → bout ≤ rts) ∧
    ∃ emitted, vout = values ++ emitted ∧
      ∀ e ∈ emitted, bstart ≤ e.1 ∧ e.1 + opts.interval ≤ rts ∧
        ((opts.gap_fill = some GapFillMethod.Default ∧ e.2 = 0) ∨
         (opts.gap_fill = some GapFillMethod.Previous ∧ e.2 = lr.2)) := by
  intro fuel
  induction fuel with
  | zero =>
    intro values bstart bend vout bout eout hbend hrun
    rw [roll_forward] at hrun
    by_cases hc : bend ≤ rts
    · rw [if_pos hc] at hrun
      exact absurd hrun (by simp)
    · rw [if_neg hc] at hrun
      simp only [Except.ok.injEq, Prod.mk.injEq] at hrun
      obtain ⟨h1, h2, h3⟩ := hrun
      subst h1
      subst h2
      subst h3
      exact ⟨hbend, by omega, Nat.le_refl _, fun h => h, [], by simp, by simp⟩
  | succ f ih =>
    intro values bstart bend vout bout eout hbend hrun
    rw [roll_forward] at hrun
    by_cases hc : bend ≤ rts
    · rw [if_pos hc] at hrun
      obtain ⟨h1, h2, h3, h4, emitted, hem, hemspec⟩ :=
        ih (conclude_bucket ⟨[], bstart, bend⟩ values lr opts) bend
          (bend + opts.interval) vout bout eout rfl hrun
      refine ⟨h1, h2, by omega, fun _ => h4 hc, ?_⟩
      have hcb : conclude_bucket ⟨[], bstart, bend⟩ values lr opts =
          values ++ (match opts.gap_fill with
            | some GapFillMethod.Default => [(bstart, (0 : Int))]
            | some GapFillMethod.Previous => [(bstart, lr.2)]
            | none => []) := by
        unfold conclude_bucket
        rw [if_neg (by simp)]
        cases opts.gap_fill with
        | none => simp
        | some gf => cases gf <;> rfl
      rw [hcb, List.append_assoc] at hem
      refine ⟨_, hem, ?_⟩
      intro e he
      rcases List.mem_append.mp he with hg | hg
      · cases hgf : opts.gap_fill with
        | none =>
          rw [hgf] at hg
          exact absurd hg (List.not_mem_nil e)
        | some gf =>
          cases gf with
          | Default =>
            rw [hgf] at hg
            have he2 : e = (bstart, (0 : Int)) := by simpa using hg
            subst he2
            refine ⟨Nat.le_refl _, ?_, Or.inl ⟨rfl, rfl⟩⟩
            show bstart + opts.interval ≤ rts
            omega
          | Previous =>
            rw [hgf] at hg
            have he2 : e = (bstart, lr.2) := by simpa using hg
            subst he2
            refine ⟨Nat.le_refl _, ?_, Or.inr ⟨rfl, rfl⟩⟩
            show bstart + opts.interval ≤ rts
            omega
      · obtain ⟨hg1, hg2, hg3⟩ := hemspec e hg
        exact ⟨by omega, hg2, hg3⟩
    · rw [if_neg hc] at hrun
      simp only [Except.ok.injEq, Prod.mk.injEq] at hrun
      obtain ⟨h1, h2, h3⟩ := hrun
      subst h1
      subst h2
      subst h3
      exact ⟨hbend, by omega, Nat.le_refl _, fun h => h, [], by simp, by simp⟩

theorem emitOK_some (stream : List Rec) (firstRec : Rec)
    (opts : PoolingOptions) (t : Nat) (v : Int) (f : Rec)
    (hfib : firstInBucket stream t opts.interval = some f) :
    emitOK stream firstRec opts (t, v) =
      (if f.1 = t ∨ opts.gap_fill = some GapFillMethod.Default then
        decide (v = f.2)
      else decide (v = ((lastBeforeBucket stream t).getD firstRec).2)) := by
  unfold emitOK
  rw [show firstInBucket stream ((t, v) : Rec).1 opts.interval = some f from hfib]

theorem emitOK_none (stream : List Rec) (firstRec : Rec)
    (opts : PoolingOptions) (t : Nat) (v : Int)
    (hfib : firstInBucket stream t opts.interval = none) :
    emitOK stream firstRec opts (t, v) =
      (match opts.gap_fill with
       | some GapFillMethod.Default => decide (v = 0)
       | some GapFillMethod.Previous =>
         decide (v = ((lastBeforeBucket stream t).getD firstRec).2)
       | none => false) := by
  unfold emitOK
  rw [show firstInBucket stream ((t, v) : Rec).1 opts.interval = none from hfib]

theorem conclude_emitOK (opts : PoolingOptions)
    (hpool : opts.pooling = PoolingMethod.Start)
    (stream scanned reader : List Rec) (firstRec : Rec) (bucket : Bucket)
    (lr : Rec) (values : List Rec)
    (hsplit : stream = scanned ++ reader)
    (hbend : bucket.bend = bucket.bstart + opts.interval)
    (hlt : ∀ r ∈ scanned, r.1 < bucket.bend)
    (hrecords : bucket.records =
      scanned.filter (fun r => decide (bucket.bstart ≤ r.1)))
    (hreader : ∀ r ∈ reader, bucket.bend ≤ r.1)
    (hlr : lr = (lastBeforeBucket scanned bucket.bstart).getD firstRec)
    (hvalues : ∀ e ∈ values, emitOK stream firstRec opts e = true) :
    ∀ e ∈ conclude_bucket bucket values lr opts,
      emitOK stream firstRec opts e = true := by
  have hW : stream.filter (fun r => decide (bucket.bstart ≤ r.1) &&
      decide (r.1 < bucket.bstart + opts.interval)) = bucket.records := by
    rw [hsplit, List.filter_append]
    have h1 : reader.filter (fun r => decide (bucket.bstart ≤ r.1) &&
        decide (r.1 < bucket.bstart + opts.interval)) = [] := by
      rw [List.filter_eq_nil_iff]
      intro a ha
      have h2 := hreader a ha
      rw [hbend] at h2
      simp only [Bool.and_eq_true, decide_eq_true_eq, not_and]
      omega
    have h3 : scanned.filter (fun r => decide (bucket.bstart ≤ r.1) &&
        decide (r.1 < bucket.bstart + opts.interval)) =
        scanned.filter (fun r => decide (bucket.bstart ≤ r.1)) := by
      apply List.filter_congr
      intro a ha
      have h4 := hlt a ha
      rw [hbend] at h4
      rw [decide_eq_true h4, Bool.and_true]
    rw [h1, h3, List.append_nil, hrecords]
  have hL : lastBeforeBucket stream bucket.bstart =
      lastBeforeBucket scanned bucket.bstart := by
    rw [hsplit]
    apply lastBeforeBucket_append_ge
    intro r hr
    have h2 := hreader r hr
    rw [hbend] at h2
    omega
  intro e he
  by_cases hrne : bucket.records = []
  · have hcb : conclude_bucket bucket values lr opts =
        values ++ (match opts.gap_fill with
          | some GapFillMethod.Default => [(bucket.bstart, (0 : Int))]
          | some GapFillMethod.Previous => [(bucket.bstart, lr.2)]
          | none => []) := by
      unfold conclude_bucket
      rw [if_neg (by simp [hrne])]
      cases opts.gap_fill with
      | none => simp
      | some gf => cases gf <;> rfl
    have hfib : firstInBucket stream bucket.bstart opts.interval = none := by
      unfold firstInBucket
      rw [hW, hrne]
      rfl
    rw [hcb] at he
    rcases List.mem_append.mp he with hv | hv
    · exact hvalues e hv
    · cases hgf : opts.gap_fill with
      | none =>
        rw [hgf] at hv
        exact absurd hv (List.not_mem_nil e)
      | some gf =>
        cases gf with
        | Default =>
          rw [hgf] at hv
          have he2 : e = (bucket.bstart, (0 : Int)) := by simpa using hv
          rw [he2, emitOK_none stream firstRec opts bucket.bstart 0 hfib, hgf]
          rfl
        | Previous =>
          rw [hgf] at hv
          have he2 : e = (bucket.bstart, lr.2) := by simpa using hv
          rw [he2, emitOK_none stream firstRec opts bucket.bstart lr.2 hfib,
            hgf, hL, hlr]
          simp
  · have hcb : conclude_bucket bucket values lr opts =
        values ++ [(bucket.bstart,
          if (bucket.records.headD (0, 0)).1 = bucket.bstart ∨
              opts.gap_fill = some GapFillMethod.Default then
            (bucket.records.headD (0, 0)).2
          else lr.2)] := by
      unfold conclude_bucket
      rw [if_pos hrne, hpool]
    have hfib : firstInBucket stream bucket.bstart opts.interval =
        some (bucket.records.headD (0, 0)) := by
      unfold firstInBucket
      rw [hW]
      exact head?_of_ne_nil _ _ hrne
    rw [hcb] at he
    rcases List.mem_append.mp he with hv | hv
    · exact hvalues e hv
    · have he2 : e = (bucket.bstart,
          if (bucket.records.headD (0, 0)).1 = bucket.bstart ∨
              opts.gap_fill = some GapFillMethod.Default then
            (bucket.records.headD (0, 0)).2
          else lr.2) := by simpa using hv
      by_cases hcond : (bucket.records.headD (0, 0)).1 = bucket.bstart ∨
          opts.gap_fill = some GapFillMethod.Default
      · rw [he2, if_pos hcond,
          emitOK_some stream firstRec opts bucket.bstart _ _ hfib,
          if_pos hcond]
        simp
      · rw [he2, if_neg hcond,
          emitOK_some stream firstRec opts bucket.bstart _ _ hfib,
          if_neg hcond, hL, hlr]
        simp

theorem gather_loop_start_spec (opts : PoolingOptions)
    (hpool : opts.pooling = PoolingMethod.Start) (hiv : 0 < opts.interval)
    (stream : List Rec) (firstRec : Rec)
    (hsort : sortedKeys stream = true) :
    ∀ (reader scanned : List Rec) (bucket : Bucket) (lr : Rec)
      (values out : List Rec),
    stream = scanned ++ reader →
    scanned.head? = some firstRec →
    bucket.bend = bucket.bstart + opts.interval →
    (∀ r ∈ scanned, r.1 < bucket.bend) →
    bucket.records = scanned.filter (fun r => decide (bucket.bstart ≤ r.1)) →
    (∀ r ∈ reader, bucket.bstart ≤ r.1) →
    lr = (lastBeforeBucket scanned bucket.bstart).getD firstRec →
    (∀ e ∈ values, emitOK stream firstRec opts e = true) →
    gather_loop opts reader.length reader bucket lr values = .ok out →
    ∀ e ∈ out, emitOK stream firstRec opts e = true := by
  intro reader
  induction reader with
  | nil =>
    intro scanned bucket lr values out hsplit hhead hbend hlt hrecords
      hreader hlr hvalues hrun
    have hout : conclude_bucket bucket values lr opts = out := by
      simpa [gather_loop] using hrun
    intro e he
    rw [← hout] at he
    exact conclude_emitOK opts hpool stream scanned [] firstRec bucket lr
      values hsplit hbend hlt hrecords (fun r hr => absurd hr (List.not_mem_nil r))
      hlr hvalues e he
  | cons record rest ih =>
    intro scanned bucket lr values out hsplit hhead hbend hlt hrecords
      hreader hlr hvalues hrun
    have hscne : scanned ≠ [] := by
      intro h
      rw [h] at hhead
      exact Option.noConfusion hhead
    have hsc : sortedKeys scanned = true :=
      sorted_append_left _ _ (hsplit ▸ hsort)
    have hsuf : sortedKeys (record :: rest) = true :=
      sorted_append_right _ _ (hsplit ▸ hsort)
    have hsplit2 : stream = (scanned ++ [record]) ++ rest := by
      rw [hsplit]
      simp
    have hhead2 : (scanned ++ [record]).head? = some firstRec :=
      head?_append_of_ne_nil scanned [record] firstRec hhead
    simp only [List.length_cons] at hrun
    by_cases hc : bucket.bend ≤ record.1
    · have hrdge : ∀ r ∈ record :: rest, bucket.bend ≤ r.1 := by
        intro r hr
        rcases List.mem_cons.mp hr with h | h
        · subst h
          exact hc
        · have := sortedKeys_head_lt record rest hsuf r h
          omega
      have hlr1 : (if bucket.records ≠ [] then bucket.records.getLastD lr
          else lr) = scanned.getLastD (0, 0) := by
        rw [hlr]
        exact carry_eq_getLast scanned hsc hscne bucket.bstart firstRec
          bucket.records hrecords
      obtain ⟨rout, hout⟩ := roll_forward_ok opts
        (if bucket.records ≠ [] then bucket.records.getLastD lr else lr)
        record.1 hiv (record.1 + 1) (conclude_bucket bucket values lr opts)
        bucket.bend (bucket.bend + opts.interval) (by omega)
      obtain ⟨v2, b2, e2⟩ := rout
      rw [gather_loop_step opts rest.length record rest bucket lr values hc
        v2 b2 e2 hout] at hrun
      obtain ⟨hspec1, hspec2, hspec3, hspec4, emitted, hem, hemitspec⟩ :=
        roll_forward_spec opts
          (if bucket.records ≠ [] then bucket.records.getLastD lr else lr)
          record.1 (record.1 + 1) (conclude_bucket bucket values lr opts)
          bucket.bend (bucket.bend + opts.interval) v2 b2 e2 rfl hout
      have hb2r : b2 ≤ record.1 := hspec4 hc
      refine ih (scanned ++ [record]) ⟨[record], b2, e2⟩
        (if bucket.records ≠ [] then bucket.records.getLastD lr else lr)
        v2 out hsplit2 hhead2 hspec1 ?_ ?_ ?_ ?_ ?_ hrun
      · intro r hr
        show r.1 < e2
        rcases List.mem_append.mp hr with h | h
        · have := hlt r h
          omega
        · have hre : r = record := by simpa using h
          rw [hre]
          omega
      · show [record] = (scanned ++ [record]).filter (fun r => decide (b2 ≤ r.1))
        rw [List.filter_append]
        have hs0 : scanned.filter (fun r => decide (b2 ≤ r.1)) = [] :=
          filter_ge_nil scanned b2 (fun r hr => by have := hlt r hr; omega)
        rw [hs0]
        simp [List.filter_cons, hb2r]
      · intro r hr
        show b2 ≤ r.1
        have := sortedKeys_head_lt record rest hsuf r hr
        omega
      · show (if bucket.records ≠ [] then bucket.records.getLastD lr else lr) =
          (lastBeforeBucket (scanned ++ [record]) b2).getD firstRec
        rw [lastBeforeBucket_append_ge scanned [record] b2
          (by intro r hr
              have hre : r = record := by simpa using hr
              rw [hre]
              omega),
          lastBeforeBucket_all_lt scanned b2
            (fun r hr => by have := hlt r hr; omega),
          getLast?_of_ne_nil scanned (0, 0) hscne]
        exact hlr1
      · intro e he
        rw [hem] at he
        rcases List.mem_append.mp he with h | h
        · exact conclude_emitOK opts hpool stream scanned (record :: rest)
            firstRec bucket lr values hsplit hbend hlt hrecords hrdge hlr
            hvalues e h
        · obtain ⟨t0, v0⟩ := e
          obtain ⟨hge, hlei, hval⟩ := hemitspec (t0, v0) h
          have hge2 : bucket.bend ≤ t0 := hge
          have hlei2 : t0 + opts.interval ≤ record.1 := hlei
          have hfibe : firstInBucket stream t0 opts.interval = none := by
            unfold firstInBucket
            have hnil : stream.filter (fun r => decide (t0 ≤ r.1) &&
                decide (r.1 < t0 + opts.interval)) = [] := by
              rw [hsplit, List.filter_eq_nil_iff]
              intro a ha
              simp only [Bool.and_eq_true, decide_eq_true_eq, not_and]
              rcases List.mem_append.mp ha with h2 | h2
              · intro h3
                have := hlt a h2
                omega
              · rcases List.mem_cons.mp h2 with h3 | h3
                · rw [h3]
                  intro _
                  omega
                · have := sortedKeys_head_lt record rest hsuf a h3
                  intro _
                  omega
            rw [hnil]
            rfl
          have hlbe : lastBeforeBucket stream t0 =
              some (scanned.getLastD (0, 0)) := by
            rw [hsplit, lastBeforeBucket_append_ge scanned (record :: rest) t0
              (by intro r hr
                  rcases List.mem_cons.mp hr with h3 | h3
                  · rw [h3]
                    omega
                  · have := sortedKeys_head_lt record rest hsuf r h3
                    omega),
              lastBeforeBucket_all_lt scanned t0
                (fun r hr => by have := hlt r hr; omega),
              getLast?_of_ne_nil scanned (0, 0) hscne]
          rcases hval with ⟨hgf, hv0⟩ | ⟨hgf, hv0⟩
          · have hv02 : v0 = 0 := hv0
            rw [emitOK_none stream firstRec opts t0 v0 hfibe, hgf, hv02]
            rfl
          · have hv02 : v0 = (if bucket.records ≠ [] then
                bucket.records.getLastD lr else lr).2 := hv0
            rw [emitOK_none stream firstRec opts t0 v0 hfibe, hgf, hv02, hlr1,
              hlbe]
            simp
    · rw [gather_loop_skip opts rest.length record rest bucket lr values hc]
        at hrun
      refine ih (scanned ++ [record])
        ⟨bucket.records ++ [record], bucket.bstart, bucket.bend⟩ lr values
        out hsplit2 hhead2 hbend ?_ ?_ ?_ ?_ hvalues hrun
      · intro r hr
        show r.1 < bucket.bend
        rcases List.mem_append.mp hr with h | h
        · exact hlt r h
        · have hre : r = record := by simpa using h
          rw [hre]
          omega
      · show bucket.records ++ [record] =
          (scanned ++ [record]).filter (fun r => decide (bucket.bstart ≤ r.1))
        rw [List.filter_append, ← hrecords]
        have hge := hreader record (List.mem_cons_self record rest)
        simp [List.filter_cons, hge]
      · intro r hr
        show bucket.bstart ≤ r.1
        exact hreader r (List.mem_cons_of_mem record hr)
      · show lr = (lastBeforeBucket (scanned ++ [record]) bucket.bstart).getD
          firstRec
        rw [lastBeforeBucket_append_ge scanned [record] bucket.bstart
          (by intro r hr
              have hre : r = record := by simpa using hr
              rw [hre]
              have := hreader record (List.mem_cons_self record rest)
              omega)]
        exact hlr

/-- Claim C7 (amended): in a `Start`-pooling `gather_buckets` run over a
sorted stream whose first record is at or before the anchor `start_time`
and whose remaining records are strictly after it, every emitted pair is
governed by `emitOK`: for a non-empty bucket whose first record `f` has
`f.1 = bucket.start` or with `gap_fill = Some(Default)` the emitted value
is `f.2`; otherwise it is the value of the **last scanned record with
timestamp strictly before the bucket start** (initially the first record
read, even when that record lies in no bucket) — not necessarily a record
observed in an earlier non-empty bucket, as the counterexample shows. -/
theorem claim_C7 (first : Rec) (rest out : List Rec)
    (opts : PoolingOptions) (start_time so eo : Nat)
    (hsort : sortedKeys (first :: rest) = true)
    (hpool : opts.pooling = PoolingMethod.Start)
    (hiv : 0 < opts.interval)
    (hfirst : first.1 ≤ start_time)
    (hrest : ∀ r ∈ rest, start_time < r.1)
    (hcount : (eo - so) / item_size + 1 = (first :: rest).length)
    (hrun : gather_buckets (first :: rest) opts start_time so eo = .ok out) :
    ∀ e ∈ out, emitOK (first :: rest) first opts e = true := by
  simp only [gather_buckets] at hrun
  have hrc : (eo - so) / item_size + 1 - 1 = rest.length := by
    simp only [List.length_cons] at hcount
    omega
  rw [hrc] at hrun
  refine gather_loop_start_spec opts hpool hiv (first :: rest) first hsort
    rest [first] ⟨if first.1 = start_time then [first] else [],
      start_time, start_time + opts.interval⟩ first [] out
    (by simp) rfl rfl ?_ ?_ ?_ ?_ (fun e he => absurd he (List.not_mem_nil e))
    hrun
  · intro r hr
    show r.1 < start_time + opts.interval
    have hre : r = first := by simpa using hr
    rw [hre]
    omega
  · by_cases hf : first.1 = start_time
    · rw [if_pos hf]
      have hle : start_time ≤ first.1 := by omega
      simp [List.filter_cons, hle]
    · rw [if_neg hf]
      have hlt : ¬ start_time ≤ first.1 := by omega
      simp [List.filter_cons, hlt]
  · intro r hr
    exact Nat.le_of_lt (hrest r hr)
  · unfold lastBeforeBucket
    by_cases hf : first.1 < start_time
    · simp [List.filter_cons, hf]
    · simp [List.filter_cons, hf]

/-- Claim C7 counterexample: pooling `[(10, 1), (14, 2), (15, 3)]` from
anchor `12` with `interval = 3`, `pooling = Start`,
`gap_fill = Some(Previous)` emits `(12, 1)` for the non-empty bucket
`[12, 15)` (first record `(14, 2)`, `14 ≠ 12`, gap fill not `Default`),
yet no record in any bucket (i.e. with timestamp `≥ 12`) has value `1`:
the carried record `(10, 1)` was read before the first bucket and lies in
no bucket at all, so the emitted value is not the value of the last record
observed in an earlier non-empty bucket. -/
theorem claim_C7_counterexample :
    gather_buckets [((10 : Nat), (1 : Int)), (14, 2), (15, 3)]
      ⟨3, .Start, some .Previous⟩ 12 0 38 = .ok [(12, 1), (15, 3)] ∧
    (∀ r ∈ [((10 : Nat), (1 : Int)), (14, 2), (15, 3)],
      12 ≤ r.1 → r.2 ≠ 1) := by
  refine ⟨by decide, by decide⟩

theorem claim_C7_witness :
    (sortedKeys [((10 : Nat), (1 : Int)), (14, 2), (15, 3)] = true ∧
      (PoolingOptions.mk 3 .Start (some .Previous)).pooling =
        PoolingMethod.Start ∧
      0 < (PoolingOptions.mk 3 .Start (some .Previous)).interval ∧
      ((10 : Nat), (1 : Int)).1 ≤ 12 ∧
      (∀ r ∈ [((14 : Nat), (2 : Int)), (15, 3)], 12 < r.1) ∧
      (38 - 0) / item_size + 1 =
        [((10 : Nat), (1 : Int)), (14, 2), (15, 3)].length ∧
      gather_buckets [((10 : Nat), (1 : Int)), (14, 2), (15, 3)]
        ⟨3, .Start, some .Previous⟩ 12 0 38 = .ok [(12, 1), (15, 3)]) ∧
    (∀ e ∈ [((12 : Nat), (1 : Int)), (15, 3)],
      emitOK [((10 : Nat), (1 : Int)), (14, 2), (15, 3)] (10, 1)
        ⟨3, .Start, some .Previous⟩ e = true) :=
  ⟨⟨by decide, rfl, by decide, by decide, by decide, by decide, by decide⟩,
    claim_C7 (10, 1) [(14, 2), (15, 3)] [(12, 1), (15, 3)]
      ⟨3, .Start, some .Previous⟩ 12 0 38 (by decide) rfl (by decide)
      (by decide) (by decide) (by decide) (by decide)⟩

end TradeData
